import Mathlib

/-!
Verification of the strictly-balanced search tree and its undoable,
persistable insertion protocol (`trees.py` of pattymartin/subjective-sort).

The Python classes are embedded as pure Lean functions:

* `AVLTree` / `MyTree` (the strictly-balanced tree): nodes carry the stored
  `height` and `min_height` attributes exactly as the Python objects do;
  mutation becomes functional rebuilding.  Places where the Python code would
  raise an `AttributeError`/`IndexError` (attribute access on `None`, `pop`
  on an empty list) are modelled as `none`.  The mutually recursive
  rebalancing helpers are given an explicit fuel argument (decremented at
  every call) to make the recursion structural; fuel exhaustion is also
  `none`, and fuel-monotonicity plus sufficiency lemmas recover totality.
* `UndoTree` / `SaveStateTree`: the exception-based control flow
  (`UndoClicked`, `_Undo`, `_Redo`, `_Cancel`, `Exit`) becomes an explicit
  result type threaded through a state-passing interpreter; the oracle (the
  overloaded comparison of `CompareImage`) becomes a function from the call
  index and the compared pair to an answer.
-/

namespace SubjectiveSort

/-- A tree node, or the absence of one (`None` in Python).  `height` and
`minHeight` are the *stored* attributes `height` / `min_height` of
`MyTree._Node`; they are what the code reads, independently of the real
height of the subtree. -/
inductive T (α : Type) where
  | nil : T α
  | node (value : α) (left : T α) (right : T α) (height : Nat) (minHeight : Nat) : T α
deriving Repr, DecidableEq

variable {α : Type}

/-- `AVLTree._get_height`: stored height, 0 for `None`. -/
def get_height : T α → Nat
  | .nil => 0
  | .node _ _ _ h _ => h

/-- `MyTree._get_min_height`: stored min height, 0 for `None`. -/
def get_min_height : T α → Nat
  | .nil => 0
  | .node _ _ _ _ mh => mh

/-- The left child (`node.left`); `nil` has no children. -/
def leftOf : T α → T α
  | .nil => .nil
  | .node _ l _ _ _ => l

/-- The right child (`node.right`). -/
def rightOf : T α → T α
  | .nil => .nil
  | .node _ _ r _ _ => r

/-- Rebuild a node with `MyTree._update_height` applied: stored height and
min height recomputed from the children's stored attributes. -/
def upd (v : α) (l r : T α) : T α :=
  .node v l r (1 + max (get_height l) (get_height r))
    (1 + min (get_min_height l) (get_min_height r))

/-- `AVLTree._get_balance`: stored height of left minus stored height of
right (an integer; Python ints are unbounded). -/
def get_balance : T α → Int
  | .nil => 0
  | .node _ l r _ _ => (get_height l : Int) - (get_height r : Int)

/-- `AVLTree._left_rotate`.  `none` models the `AttributeError` the Python
code raises when `node` or `node.right` is `None`. -/
def left_rotate : T α → Option (T α)
  | .node v l (.node rv rl rr _ _) _ _ => some (upd rv (upd v l rl) rr)
  | _ => none

/-- `AVLTree._right_rotate`.  `none` models the `AttributeError` raised when
`node` or `node.left` is `None`. -/
def right_rotate : T α → Option (T α)
  | .node v (.node lv ll lr _ _) r _ _ => some (upd lv ll (upd v lr r))
  | _ => none

/-- `AVLTree._balance` (the AVL part only: update height, then rotate if the
stored balance factor exceeds 1 in absolute value).  `none` models the crash
on `_update_height(None)`. -/
def avl_balance : T α → Option (T α)
  | .nil => none
  | .node v l r _ _ =>
    if 1 < (get_height l : Int) - (get_height r : Int) then
      if get_balance l < 0 then
        (left_rotate l).bind fun l' => right_rotate (.node v l' r 0 0)
      else right_rotate (.node v l r 0 0)
    else if (get_height l : Int) - (get_height r : Int) < -1 then
      if 0 < get_balance r then
        (right_rotate r).bind fun r' => left_rotate (.node v l r' 0 0)
      else left_rotate (.node v l r 0 0)
    else some (upd v l r)

/-- `AVLTree._get_min_node` (its `.value`); `none` models the crash on a
`None` argument. -/
def get_min_node : T α → Option α
  | .nil => none
  | .node v .nil _ _ _ => some v
  | .node _ (.node lv ll lr lh lmh) _ _ _ => get_min_node (.node lv ll lr lh lmh)

/-- `MyTree._get_max_node` (its `.value`); `none` models the crash on a
`None` argument. -/
def get_max_node : T α → Option α
  | .nil => none
  | .node v _ .nil _ _ => some v
  | .node _ _ (.node rv rl rr rh rmh) _ _ => get_max_node (.node rv rl rr rh rmh)

mutual

/-- `MyTree._balance`: AVL-rebalance, then if the stored height exceeds the
stored min height by more than one, perform a shift (right shift when the
left subtree's stored min height is larger, otherwise left shift). -/
def balance : Nat → T α → Option (T α)
  | 0, _ => none
  | f + 1, t =>
    match avl_balance t with
    | none => none
    | some t' =>
      if 1 < (get_height t' : Int) - (get_min_height t' : Int) then
        if 0 < (get_min_height (leftOf t') : Int) - (get_min_height (rightOf t') : Int) then
          right_shift f t'
        else
          left_shift f t'
      else some t'

/-- `MyTree._right_shift`: promote the maximum of the left subtree into the
root, delete it from the left subtree, and extremal-insert the old root
value as the new minimum of the right subtree. -/
def right_shift : Nat → T α → Option (T α)
  | 0, _ => none
  | _ + 1, .nil => none
  | f + 1, .node v l r _ _ =>
    (get_max_node l).bind fun mx =>
      (delete_max f l).bind fun l' =>
        (insert_min f r v).bind fun r' => some (upd mx l' r')

/-- `MyTree._left_shift`: promote the minimum of the right subtree into the
root, delete it from the right subtree, and extremal-insert the old root
value as the new maximum of the left subtree. -/
def left_shift : Nat → T α → Option (T α)
  | 0, _ => none
  | _ + 1, .nil => none
  | f + 1, .node v l r _ _ =>
    (get_min_node r).bind fun mn =>
      (delete_min f r).bind fun r' =>
        (insert_max f l v).bind fun l' => some (upd mn l' r')

/-- `insert_min` inside `MyTree._right_shift`: walk only left children, make
a new leaf at the bottom, rebalance on the way up. -/
def insert_min : Nat → T α → α → Option (T α)
  | 0, _, _ => none
  | _ + 1, .nil, v => some (.node v .nil .nil 1 1)
  | f + 1, .node nv l r h mh, v =>
    (insert_min f l v).bind fun l' => balance f (.node nv l' r h mh)

/-- `insert_max` inside `MyTree._left_shift`: walk only right children. -/
def insert_max : Nat → T α → α → Option (T α)
  | 0, _, _ => none
  | _ + 1, .nil, v => some (.node v .nil .nil 1 1)
  | f + 1, .node nv l r h mh, v =>
    (insert_max f r v).bind fun r' => balance f (.node nv l r' h mh)

/-- `delete_max` inside `MyTree._right_shift`: remove the rightmost node. -/
def delete_max : Nat → T α → Option (T α)
  | 0, _ => none
  | _ + 1, .nil => some .nil
  | f + 1, .node v l r h mh =>
    match r with
    | .nil => some l
    | .node .. =>
      (delete_max f r).bind fun r' => balance f (.node v l r' h mh)

/-- `delete_min` inside `MyTree._left_shift`: remove the leftmost node. -/
def delete_min : Nat → T α → Option (T α)
  | 0, _ => none
  | _ + 1, .nil => some .nil
  | f + 1, .node v l r h mh =>
    match l with
    | .nil => some r
    | .node .. =>
      (delete_min f l).bind fun l' => balance f (.node v l' r h mh)

end

/-- `AVLTree._insert` as inherited by `MyTree`, with the comparison
`value < node.value` answered by the linear order on `α` (an oracle that is
consistent with a fixed total order and never answers UNDO or EXIT). -/
def minsert [LinearOrder α] (f : Nat) : T α → α → Option (T α)
  | .nil, v => some (.node v .nil .nil 1 1)
  | .node nv l r h mh, v =>
    if v < nv then
      (minsert f l v).bind fun l' => balance f (.node nv l' r h mh)
    else
      (minsert f r v).bind fun r' => balance f (.node nv l r' h mh)

/-- `AVLTree._delete` as inherited by `MyTree` (same consistent oracle). -/
def mdelete [LinearOrder α] (f : Nat) : T α → α → Option (T α)
  | .nil, _ => some .nil
  | .node nv l r h mh, v =>
    if v < nv then
      (mdelete f l v).bind fun l' => balance f (.node nv l' r h mh)
    else if nv < v then
      (mdelete f r v).bind fun r' => balance f (.node nv l r' h mh)
    else
      match l, r with
      | .nil, _ => some r
      | .node .., .nil => some l
      | .node .., .node .. =>
        (get_min_node r).bind fun m =>
          (mdelete f r m).bind fun r' => balance f (.node m l r' h mh)

/-- `AVLTree._to_list` with its `preorder` flag. -/
def to_list_aux (preorder : Bool) : T α → List α
  | .nil => []
  | .node v l r _ _ =>
    let left := to_list_aux preorder l
    let right := to_list_aux preorder r
    if preorder then [v] ++ left ++ right else left ++ [v] ++ right

/-- `AVLTree.to_list()` with `preorder=False`: the sorted sequence. -/
def to_list (t : T α) : List α := to_list_aux false t

/-- Number of nodes in a tree. -/
def tsize : T α → Nat
  | .nil => 0
  | .node _ l r _ _ => 1 + tsize l + tsize r

/-- The real height of a tree (longest path, in nodes). -/
def rh : T α → Nat
  | .nil => 0
  | .node _ l r _ _ => 1 + max (rh l) (rh r)

/-- The real minimum height of a tree (shortest path to an empty slot). -/
def rmh : T α → Nat
  | .nil => 0
  | .node _ l r _ _ => 1 + min (rmh l) (rmh r)

/-- The stored `height` and `min_height` attributes agree with the real
height and minimum height at every node. -/
def Accurate : T α → Bool
  | .nil => true
  | .node _ l r h mh =>
    Accurate l && Accurate r && (h == 1 + max (rh l) (rh r))
      && (mh == 1 + min (rmh l) (rmh r))

/-- AVL balance invariant over real heights: at every node the heights of
the children differ by at most one (claim C4's property). -/
def AvlBal : T α → Bool
  | .nil => true
  | .node _ l r _ _ =>
    AvlBal l && AvlBal r && ((rh l : Int) - (rh r : Int)).natAbs ≤ 1

/-- Strict balance invariant over real heights: at every node the height
exceeds the minimum height by at most one (claim C3's property). -/
def StrictBal : T α → Bool
  | .nil => true
  | .node _ l r _ _ =>
    StrictBal l && StrictBal r && max (rh l) (rh r) ≤ min (rmh l) (rmh r) + 1

/-! ### Arithmetic of binary logarithms

Strict balance forces the real height of a subtree to be `⌈log₂ (n+1)⌉` and
the real minimum height to be `⌊log₂ (n+1)⌋`, so the whole rebalancing
analysis reduces to arithmetic about `Nat.log 2` and `Nat.clog 2`. -/

abbrev lg (n : Nat) : Nat := Nat.log 2 n

abbrev clg (n : Nat) : Nat := Nat.clog 2 n

theorem lg_le_clg (n : Nat) : lg n ≤ clg n := Nat.log_le_clog 2 n

theorem two_pow_lg_le {n : Nat} (h : 1 ≤ n) : 2 ^ lg n ≤ n :=
  Nat.pow_log_le_self 2 (by omega)

theorem lt_two_pow_lg (n : Nat) : n < 2 ^ (lg n + 1) :=
  Nat.lt_pow_succ_log_self (by omega) n

theorem le_two_pow_clg (n : Nat) : n ≤ 2 ^ clg n :=
  Nat.le_pow_clog (by omega) n

theorem two_pow_clg_pred_lt {n : Nat} (h : 2 ≤ n) : 2 ^ (clg n - 1) < n :=
  Nat.pow_pred_clog_lt_self (by omega) (by omega)

theorem le_lg_iff {m n : Nat} (h : 1 ≤ n) : m ≤ lg n ↔ 2 ^ m ≤ n :=
  (Nat.pow_le_iff_le_log (by omega) (by omega)).symm

theorem clg_le_iff {m n : Nat} : clg n ≤ m ↔ n ≤ 2 ^ m :=
  (Nat.le_pow_iff_clog_le (by omega)).symm

theorem lt_clg_iff {m n : Nat} : m < clg n ↔ 2 ^ m < n :=
  (Nat.pow_lt_iff_lt_clog (by omega)).symm

theorem lg_lt_iff {m n : Nat} (h : 1 ≤ n) : lg n < m ↔ n < 2 ^ m :=
  (Nat.lt_pow_iff_log_lt (by omega) (by omega)).symm

theorem clg_le_lg_succ {n : Nat} (h : 1 ≤ n) : clg n ≤ lg n + 1 :=
  clg_le_iff.2 (le_of_lt (lt_two_pow_lg n))

theorem lg_two_pow (j : Nat) : lg (2 ^ j) = j := Nat.log_pow (by omega) j

theorem clg_two_pow (j : Nat) : clg (2 ^ j) = j := Nat.clog_pow 2 j (by omega)

theorem lg_mono {m n : Nat} (h : m ≤ n) : lg m ≤ lg n := Nat.log_mono_right h

theorem clg_mono {m n : Nat} (h : m ≤ n) : clg m ≤ clg n := Nat.clog_mono_right 2 h

/-- A positive number whose floor and ceiling logs agree is a power of 2. -/
theorem eq_two_pow_of_lg_eq_clg {n : Nat} (h : 1 ≤ n) (he : lg n = clg n) :
    n = 2 ^ lg n := by
  have h1 := two_pow_lg_le h
  have h2 := le_two_pow_clg n
  rw [← he] at h2
  omega

/-- The root condition of strict balance in terms of the (sizes + 1) of the
two children: the larger ceiling log exceeds the smaller floor log by at
most one. -/
def RC (a b : Nat) : Prop := max (clg a) (clg b) ≤ min (lg a) (lg b) + 1

instance : DecidablePred fun p : Nat × Nat => RC p.1 p.2 := by
  unfold RC; infer_instance

/-- One insert or delete away from (or exactly at) a strictly balanced
root split. -/
@[reducible] def POK (a b : Nat) : Prop :=
  RC a b ∨ RC (a + 1) b ∨ RC (a - 1) b ∨ RC a (b + 1) ∨ RC a (b - 1)

/-- Merging two strictly balanced subtrees under a fresh root: the ceiling
log of the total is one more than the larger ceiling log, and the floor log
of the total is one more than the smaller floor log. -/
theorem lg_clg_merge {a b : Nat} (ha : 1 ≤ a) (hb : 1 ≤ b) (h : RC a b) :
    clg (a + b) = max (clg a) (clg b) + 1 ∧ lg (a + b) = min (lg a) (lg b) + 1 := by
  set M := max (clg a) (clg b) with hM
  set m := min (lg a) (lg b) with hm
  have hrc : M ≤ m + 1 := h
  have hMa' : clg a ≤ M := le_max_left _ _
  have hMb' : clg b ≤ M := le_max_right _ _
  have hma' : m ≤ lg a := min_le_left _ _
  have hmb' : m ≤ lg b := min_le_right _ _
  have hMor : clg a = M ∨ clg b = M := by
    rcases max_choice (clg a) (clg b) with h1 | h1 <;> omega
  have hmor : lg a = m ∨ lg b = m := by
    rcases min_choice (lg a) (lg b) with h1 | h1 <;> omega
  have hflea : 2 ^ lg a ≤ a := two_pow_lg_le ha
  have hfleb : 2 ^ lg b ≤ b := two_pow_lg_le hb
  have hclea : a ≤ 2 ^ clg a := le_two_pow_clg a
  have hcleb : b ≤ 2 ^ clg b := le_two_pow_clg b
  have hma : 2 ^ m ≤ 2 ^ lg a := Nat.pow_le_pow_right (by omega) (by omega)
  have hmb : 2 ^ m ≤ 2 ^ lg b := Nat.pow_le_pow_right (by omega) (by omega)
  have hMa : 2 ^ clg a ≤ 2 ^ M := Nat.pow_le_pow_right (by omega) (by omega)
  have hMb : 2 ^ clg b ≤ 2 ^ M := Nat.pow_le_pow_right (by omega) (by omega)
  constructor
  · -- ceiling log of the sum
    apply le_antisymm
    · apply clg_le_iff.2
      have : 2 ^ (M + 1) = 2 ^ M + 2 ^ M := by ring
      omega
    · -- 2 ^ M < a + b
      apply Nat.succ_le_of_lt
      apply lt_clg_iff.2
      by_cases hM0 : M = 0
      · have h1 : clg a = 0 := by omega
        have h2 : clg b = 0 := by omega
        have : a ≤ 1 := by
          have := clg_le_iff.1 (le_of_eq h1)
          simpa using this
        have : b ≤ 1 := by
          have := clg_le_iff.1 (le_of_eq h2)
          simpa using this
        simp only [hM0]
        omega
      · -- the side achieving M satisfies 2 ^ (M - 1) < that side
        have hpow : 2 ^ M = 2 ^ (M - 1) + 2 ^ (M - 1) := by
          have h1 : M - 1 + 1 = M := by omega
          calc 2 ^ M = 2 ^ (M - 1 + 1) := by rw [h1]
          _ = 2 ^ (M - 1) + 2 ^ (M - 1) := by rw [pow_succ]; omega
        rcases hMor with hca | hcb
        · have ha2 : 2 ≤ a := by
            by_contra hlt
            have : a ≤ 1 := by omega
            have : clg a = 0 := Nat.clog_of_right_le_one this 2
            omega
          have h1 : 2 ^ (clg a - 1) < a := two_pow_clg_pred_lt ha2
          rw [hca] at h1
          have h2 : 2 ^ (M - 1) ≤ 2 ^ lg b := by
            apply Nat.pow_le_pow_right (by omega); omega
          omega
        · have hb2 : 2 ≤ b := by
            by_contra hlt
            have : b ≤ 1 := by omega
            have : clg b = 0 := Nat.clog_of_right_le_one this 2
            omega
          have h1 : 2 ^ (clg b - 1) < b := two_pow_clg_pred_lt hb2
          rw [hcb] at h1
          have h2 : 2 ^ (M - 1) ≤ 2 ^ lg a := by
            apply Nat.pow_le_pow_right (by omega); omega
          omega
  · -- floor log of the sum
    apply le_antisymm
    · -- a + b < 2 ^ (m + 2)
      apply Nat.lt_succ_iff.1
      apply Nat.lt_of_lt_of_le (lg_lt_iff (by omega) |>.2 ?_) (le_refl _)
      · -- strictness: not both a and b can reach 2 ^ (m + 1)
        have hma1 : a ≤ 2 ^ (m + 1) := by
          calc a ≤ 2 ^ clg a := hclea
          _ ≤ 2 ^ (m + 1) := Nat.pow_le_pow_right (by omega) (by omega)
        have hmb1 : b ≤ 2 ^ (m + 1) := by
          calc b ≤ 2 ^ clg b := hcleb
          _ ≤ 2 ^ (m + 1) := Nat.pow_le_pow_right (by omega) (by omega)
        have hne : a < 2 ^ (m + 1) ∨ b < 2 ^ (m + 1) := by
          by_contra hcon
          push_neg at hcon
          have hae : a = 2 ^ (m + 1) := by omega
          have hbe : b = 2 ^ (m + 1) := by omega
          have h1 : lg a = m + 1 := by rw [hae]; exact lg_two_pow (m + 1)
          have h2 : lg b = m + 1 := by rw [hbe]; exact lg_two_pow (m + 1)
          omega
        have : 2 ^ (m + 2) = 2 ^ (m + 1) + 2 ^ (m + 1) := by ring
        omega
    · apply (le_lg_iff (by omega)).2
      have : 2 ^ (m + 1) = 2 ^ m + 2 ^ m := by ring
      omega

/-! ### Structural consequences of strict balance -/

theorem StrictBal_node {v : α} {l r : T α} {h mh : Nat} :
    StrictBal (.node v l r h mh) = true ↔
      StrictBal l = true ∧ StrictBal r = true ∧
        max (rh l) (rh r) ≤ min (rmh l) (rmh r) + 1 := by
  simp [StrictBal, Bool.and_eq_true, and_assoc]

theorem Accurate_node {v : α} {l r : T α} {h mh : Nat} :
    Accurate (.node v l r h mh) = true ↔
      Accurate l = true ∧ Accurate r = true ∧
        h = 1 + max (rh l) (rh r) ∧ mh = 1 + min (rmh l) (rmh r) := by
  simp [Accurate, Bool.and_eq_true, and_assoc]

/-- In a strictly balanced tree, the real height is the ceiling log and the
real min height is the floor log of the size plus one. -/
theorem sb_heights {t : T α} (hs : StrictBal t = true) :
    rh t = clg (tsize t + 1) ∧ rmh t = lg (tsize t + 1) := by
  induction t with
  | nil => simp [rh, rmh, tsize]
  | node v l r h mh ihl ihr =>
    rw [StrictBal_node] at hs
    obtain ⟨hl, hr, hroot⟩ := hs
    obtain ⟨ihl1, ihl2⟩ := ihl hl
    obtain ⟨ihr1, ihr2⟩ := ihr hr
    have hrc : RC (tsize l + 1) (tsize r + 1) := by
      unfold RC
      rw [← ihl1, ← ihr1, ← ihl2, ← ihr2]
      exact hroot
    obtain ⟨hc, hf⟩ := lg_clg_merge (by omega) (by omega) hrc
    have hsz : tsize (T.node v l r h mh) + 1 = (tsize l + 1) + (tsize r + 1) := by
      simp [tsize]; omega
    constructor
    · rw [show rh (T.node v l r h mh) = 1 + max (rh l) (rh r) from rfl, hsz, hc,
        ihl1, ihr1]
      omega
    · rw [show rmh (T.node v l r h mh) = 1 + min (rmh l) (rmh r) from rfl, hsz, hf,
        ihl2, ihr2]
      omega

/-- In an accurate tree the stored attributes equal the real heights. -/
theorem accurate_stored {t : T α} (ha : Accurate t = true) :
    get_height t = rh t ∧ get_min_height t = rmh t := by
  cases t with
  | nil => simp [get_height, get_min_height, rh, rmh]
  | node v l r h mh =>
    rw [Accurate_node] at ha
    simp [get_height, get_min_height, rh, rmh, ha.2.2.1, ha.2.2.2]

/-- A strictly balanced subtree is height-balanced: its own height exceeds
its own min height by at most one. -/
theorem sb_self {t : T α} (hs : StrictBal t = true) : rh t ≤ rmh t + 1 := by
  cases t with
  | nil => simp [rh, rmh]
  | node v l r h mh =>
    rw [StrictBal_node] at hs
    have h1 : max (rh l) (rh r) ≤ min (rmh l) (rmh r) + 1 := hs.2.2
    simp only [rh, rmh]
    omega

/-- The real min height never exceeds the real height. -/
theorem rmh_le_rh (t : T α) : rmh t ≤ rh t := by
  induction t with
  | nil => simp [rh, rmh]
  | node v l r h mh ihl ihr => simp only [rh, rmh]; omega

/-- Strict balance implies the AVL balance invariant (claim C4 reduces to
claim C3's invariant). -/
theorem sb_implies_avl {t : T α} (hs : StrictBal t = true) : AvlBal t = true := by
  induction t with
  | nil => simp [AvlBal]
  | node v l r h mh ihl ihr =>
    rw [StrictBal_node] at hs
    obtain ⟨hl, hr, hroot⟩ := hs
    have h1 := rmh_le_rh l
    have h2 := rmh_le_rh r
    simp only [AvlBal, Bool.and_eq_true, decide_eq_true_eq]
    refine ⟨⟨ihl hl, ihr hr⟩, ?_⟩
    omega

/-! ### The in-order traversal -/

theorem to_list_nil : to_list (T.nil : T α) = [] := rfl

theorem to_list_node {v : α} {l r : T α} {h mh : Nat} :
    to_list (T.node v l r h mh) = to_list l ++ v :: to_list r := by
  simp [to_list, to_list_aux]

theorem length_to_list (t : T α) : (to_list t).length = tsize t := by
  induction t with
  | nil => rfl
  | node v l r h mh ihl ihr => rw [to_list_node]; simp [tsize, ihl, ihr]; omega

theorem to_list_upd {v : α} {l r : T α} :
    to_list (upd v l r) = to_list l ++ v :: to_list r := to_list_node

theorem tsize_pos_iff {t : T α} : 0 < tsize t ↔ t ≠ T.nil := by
  cases t <;> simp [tsize]

theorem to_list_eq_nil_iff {t : T α} : to_list t = [] ↔ t = T.nil := by
  constructor
  · intro h
    have := length_to_list t
    rw [h] at this
    cases t with
    | nil => rfl
    | node v l r hh mm => simp [tsize] at this; omega
  · intro h; rw [h]; rfl

/-- `MyTree._get_max_node` returns the last element of the sorted list. -/
theorem get_max_node_spec (t : T α) : get_max_node t = (to_list t).getLast? := by
  induction t with
  | nil => rfl
  | node v l r h mh ihl ihr =>
    rw [to_list_node, List.getLast?_append_cons]
    cases r with
    | nil => simp [get_max_node, to_list_nil]
    | node rv rl rr rh' rmh' =>
      rw [show get_max_node (T.node v l (T.node rv rl rr rh' rmh') h mh)
          = get_max_node (T.node rv rl rr rh' rmh') from rfl, ihr, to_list_node]
      cases hcl : to_list rl with
      | nil => simp
      | cons x xs => simp [List.getLast?_cons_cons]

/-- `AVLTree._get_min_node` returns the head of the sorted list. -/
theorem get_min_node_spec (t : T α) : get_min_node t = (to_list t).head? := by
  induction t with
  | nil => rfl
  | node v l r h mh ihl ihr =>
    rw [to_list_node]
    cases l with
    | nil => simp [get_min_node, to_list_nil]
    | node lv ll lr lh' lmh' =>
      rw [show get_min_node (T.node v (T.node lv ll lr lh' lmh') r h mh)
          = get_min_node (T.node lv ll lr lh' lmh') from rfl, ihl,
        List.head?_append_of_ne_nil]
      rw [Ne, to_list_eq_nil_iff]
      simp

/-! ### Fuel monotonicity

Every function of the mutually recursive rebalancing family is monotone in
its fuel argument: increasing fuel can only turn `none` into `some`, never
change a `some` result. -/

theorem fuel_mono : ∀ f : Nat,
    (∀ (t t' : T α), balance f t = some t' → balance (f + 1) t = some t') ∧
    (∀ (t t' : T α), right_shift f t = some t' → right_shift (f + 1) t = some t') ∧
    (∀ (t t' : T α), left_shift f t = some t' → left_shift (f + 1) t = some t') ∧
    (∀ (t : T α) (v : α) (t' : T α),
      insert_min f t v = some t' → insert_min (f + 1) t v = some t') ∧
    (∀ (t : T α) (v : α) (t' : T α),
      insert_max f t v = some t' → insert_max (f + 1) t v = some t') ∧
    (∀ (t t' : T α), delete_max f t = some t' → delete_max (f + 1) t = some t') ∧
    (∀ (t t' : T α), delete_min f t = some t' → delete_min (f + 1) t = some t') := by
  intro f
  induction f with
  | zero =>
    refine ⟨?_, ?_, ?_, ?_, ?_, ?_, ?_⟩ <;> intros <;> simp_all [balance,
      right_shift, left_shift, insert_min, insert_max, delete_max, delete_min]
  | succ f ih =>
    obtain ⟨ihB, ihRS, ihLS, ihIm, ihIM, ihDM, ihDm⟩ := ih
    refine ⟨?_, ?_, ?_, ?_, ?_, ?_, ?_⟩
    · intro t t' hb
      unfold balance at hb ⊢
      cases havl : avl_balance t with
      | none => rw [havl] at hb; simp at hb
      | some u =>
        rw [havl] at hb
        dsimp only at hb ⊢
        split_ifs at hb ⊢ with h1 h2
        · exact ihRS _ _ hb
        · exact ihLS _ _ hb
        · exact hb
    · intro t t' hb
      cases t with
      | nil => simp [right_shift] at hb
      | node v l r h mh =>
        simp only [right_shift, Option.bind_eq_some] at hb ⊢
        obtain ⟨mx, hmx, l', hdm, r', him, he⟩ := hb
        exact ⟨mx, hmx, l', ihDM _ _ hdm, r', ihIm _ _ _ him, he⟩
    · intro t t' hb
      cases t with
      | nil => simp [left_shift] at hb
      | node v l r h mh =>
        simp only [left_shift, Option.bind_eq_some] at hb ⊢
        obtain ⟨mn, hmn, r', hdm, l', him, he⟩ := hb
        exact ⟨mn, hmn, r', ihDm _ _ hdm, l', ihIM _ _ _ him, he⟩
    · intro t v t' hb
      cases t with
      | nil => simpa [insert_min] using hb
      | node nv l r h mh =>
        simp only [insert_min, Option.bind_eq_some] at hb ⊢
        obtain ⟨l', him, he⟩ := hb
        exact ⟨l', ihIm _ _ _ him, ihB _ _ he⟩
    · intro t v t' hb
      cases t with
      | nil => simpa [insert_max] using hb
      | node nv l r h mh =>
        simp only [insert_max, Option.bind_eq_some] at hb ⊢
        obtain ⟨r', him, he⟩ := hb
        exact ⟨r', ihIM _ _ _ him, ihB _ _ he⟩
    · intro t t' hb
      cases t with
      | nil => simpa [delete_max] using hb
      | node v l r h mh =>
        cases r with
        | nil => simpa [delete_max] using hb
        | node rv rl rr rh' rmh' =>
          simp only [delete_max, Option.bind_eq_some] at hb ⊢
          obtain ⟨r', hdm, he⟩ := hb
          exact ⟨r', ihDM _ _ hdm, ihB _ _ he⟩
    · intro t t' hb
      cases t with
      | nil => simpa [delete_min] using hb
      | node v l r h mh =>
        cases l with
        | nil => simpa [delete_min] using hb
        | node lv ll lr lh' lmh' =>
          simp only [delete_min, Option.bind_eq_some] at hb ⊢
          obtain ⟨l', hdm, he⟩ := hb
          exact ⟨l', ihDm _ _ hdm, ihB _ _ he⟩

theorem balance_mono {f g : Nat} {t t' : T α} (hfg : f ≤ g)
    (h : balance f t = some t') : balance g t = some t' := by
  induction g with
  | zero => cases Nat.le_zero.1 hfg; exact h
  | succ g ih =>
    rcases Nat.lt_or_ge f (g + 1) with h1 | h1
    · exact (fuel_mono g).1 _ _ (ih (by omega))
    · have : f = g + 1 := by omega
      rw [← this]; exact h

theorem insert_min_mono {f g : Nat} {t : T α} {v : α} {t' : T α} (hfg : f ≤ g)
    (h : insert_min f t v = some t') : insert_min g t v = some t' := by
  induction g with
  | zero => cases Nat.le_zero.1 hfg; exact h
  | succ g ih =>
    rcases Nat.lt_or_ge f (g + 1) with h1 | h1
    · exact (fuel_mono g).2.2.2.1 _ _ _ (ih (by omega))
    · have : f = g + 1 := by omega
      rw [← this]; exact h

theorem insert_max_mono {f g : Nat} {t : T α} {v : α} {t' : T α} (hfg : f ≤ g)
    (h : insert_max f t v = some t') : insert_max g t v = some t' := by
  induction g with
  | zero => cases Nat.le_zero.1 hfg; exact h
  | succ g ih =>
    rcases Nat.lt_or_ge f (g + 1) with h1 | h1
    · exact (fuel_mono g).2.2.2.2.1 _ _ _ (ih (by omega))
    · have : f = g + 1 := by omega
      rw [← this]; exact h

theorem delete_max_mono {f g : Nat} {t t' : T α} (hfg : f ≤ g)
    (h : delete_max f t = some t') : delete_max g t = some t' := by
  induction g with
  | zero => cases Nat.le_zero.1 hfg; exact h
  | succ g ih =>
    rcases Nat.lt_or_ge f (g + 1) with h1 | h1
    · exact (fuel_mono g).2.2.2.2.2.1 _ _ (ih (by omega))
    · have : f = g + 1 := by omega
      rw [← this]; exact h

theorem delete_min_mono {f g : Nat} {t t' : T α} (hfg : f ≤ g)
    (h : delete_min f t = some t') : delete_min g t = some t' := by
  induction g with
  | zero => cases Nat.le_zero.1 hfg; exact h
  | succ g ih =>
    rcases Nat.lt_or_ge f (g + 1) with h1 | h1
    · exact (fuel_mono g).2.2.2.2.2.2 _ _ (ih (by omega))
    · have : f = g + 1 := by omega
      rw [← this]; exact h

theorem minsert_mono [LinearOrder α] {f g : Nat} {t : T α} {v : α} {t' : T α}
    (hfg : f ≤ g) (h : minsert f t v = some t') : minsert g t v = some t' := by
  induction t generalizing t' with
  | nil => simpa [minsert] using h
  | node nv l r hh mm ihl ihr =>
    simp only [minsert] at h ⊢
    split_ifs at h ⊢
    · simp only [Option.bind_eq_some] at h ⊢
      obtain ⟨l', h1, h2⟩ := h
      exact ⟨l', ihl h1, balance_mono hfg h2⟩
    · simp only [Option.bind_eq_some] at h ⊢
      obtain ⟨r', h1, h2⟩ := h
      exact ⟨r', ihr h1, balance_mono hfg h2⟩

theorem mdelete_mono [LinearOrder α] {f g : Nat} {t : T α} {v : α} {t' : T α}
    (hfg : f ≤ g) (h : mdelete f t v = some t') : mdelete g t v = some t' := by
  induction t generalizing v t' with
  | nil => simpa [mdelete] using h
  | node nv l r hh mm ihl ihr =>
    simp only [mdelete] at h ⊢
    split_ifs at h ⊢
    · simp only [Option.bind_eq_some] at h ⊢
      obtain ⟨l', h1, h2⟩ := h
      exact ⟨l', ihl h1, balance_mono hfg h2⟩
    · simp only [Option.bind_eq_some] at h ⊢
      obtain ⟨r', h1, h2⟩ := h
      exact ⟨r', ihr h1, balance_mono hfg h2⟩
    · cases l with
      | nil => exact h
      | node lv ll lr lh lmh =>
        cases r with
        | nil => exact h
        | node rv rl rr rh2 rmh2 =>
          simp only [Option.bind_eq_some] at h ⊢
          obtain ⟨m, h1, r', h2, h3⟩ := h
          exact ⟨m, h1, r', ihr h2, balance_mono hfg h3⟩

/-! ### Small log-arithmetic facts used by the rebalancing analysis -/

theorem clg_le_clg_pred_succ (a : Nat) : clg a ≤ clg (a - 1) + 1 := by
  rcases Nat.lt_or_ge a 2 with h | h
  · interval_cases a <;> simp [Nat.clog]
  · apply clg_le_iff.2
    have h1 : a - 1 ≤ 2 ^ clg (a - 1) := le_two_pow_clg (a - 1)
    have h2 : 1 ≤ 2 ^ clg (a - 1) := Nat.one_le_two_pow
    have : 2 ^ (clg (a - 1) + 1) = 2 ^ clg (a - 1) + 2 ^ clg (a - 1) := by ring
    omega

theorem lg_succ_le (a : Nat) : lg (a + 1) ≤ lg a + 1 := by
  rcases Nat.eq_zero_or_pos a with h | h
  · subst h; simp [Nat.log]
  · apply Nat.lt_succ_iff.1
    apply (lg_lt_iff (by omega)).2
    have h1 : a < 2 ^ (lg a + 1) := lt_two_pow_lg a
    have h2 : 2 ^ (lg a + 1) < 2 ^ (lg a + 2) := by
      apply Nat.pow_lt_pow_right (by omega) (by omega)
    omega

theorem clg_pow_succ (j : Nat) : clg (2 ^ j + 1) = j + 1 := by
  apply le_antisymm
  · apply clg_le_iff.2
    have : 2 ^ (j + 1) = 2 ^ j + 2 ^ j := by ring
    have h2 : 1 ≤ 2 ^ j := Nat.one_le_two_pow
    omega
  · apply Nat.succ_le_of_lt
    apply lt_clg_iff.2
    omega

theorem lg_pow_succ {j : Nat} (hj : 1 ≤ j) : lg (2 ^ j + 1) = j := by
  have hp1 : 1 ≤ 2 ^ j := Nat.one_le_two_pow
  apply le_antisymm
  · apply Nat.lt_succ_iff.1
    refine (lg_lt_iff ?_).2 ?_
    · omega
    · have : 2 ^ (j + 1) = 2 ^ j + 2 ^ j := by ring
      have h2 : 2 ≤ 2 ^ j := by
        calc 2 = 2 ^ 1 := by ring
        _ ≤ 2 ^ j := Nat.pow_le_pow_right (by omega) hj
      omega
  · refine (le_lg_iff ?_).2 ?_ <;> omega

/-- Being one insert or one delete away from a strictly balanced root keeps
the ceiling logs of the two sides within 2 of each other. -/
theorem pok_bf_bound {a b : Nat} (ha : 1 ≤ a) (hb : 1 ≤ b) (hP : POK a b) :
    clg a ≤ clg b + 2 ∧ clg b ≤ clg a + 2 := by
  have e1 := clg_le_clg_pred_succ a
  have e2 := clg_le_clg_pred_succ b
  have e3 : clg a ≤ clg (a + 1) := clg_mono (by omega)
  have e4 : clg b ≤ clg (b + 1) := clg_mono (by omega)
  have e5 : clg (a - 1) ≤ clg a := clg_mono (by omega)
  have e6 : clg (b - 1) ≤ clg b := clg_mono (by omega)
  have f1 := lg_succ_le a
  have f2 := lg_succ_le b
  have f3 : lg (a - 1) ≤ lg a := lg_mono (by omega)
  have f4 : lg (b - 1) ≤ lg b := lg_mono (by omega)
  have g1 := lg_le_clg a
  have g2 := lg_le_clg b
  have g3 := lg_le_clg (a + 1)
  have g4 := lg_le_clg (b + 1)
  have g5 : lg a ≤ lg (a + 1) := lg_mono (by omega)
  have g6 : lg b ≤ lg (b + 1) := lg_mono (by omega)
  rcases hP with h | h | h | h | h <;>
    · have h1 : _ ≤ _ := le_trans (le_max_left _ _) h
      have h2 : _ ≤ _ := le_trans (le_max_right _ _) h
      simp only [min_le_iff, le_min_iff] at h1 h2 ⊢
      constructor <;> omega

/-- One op away from strict balance, the height/min-height gap at the root
is at most 2. -/
theorem pok_diff_bound {a b : Nat} (ha : 1 ≤ a) (hb : 1 ≤ b) (hP : POK a b) :
    max (clg a) (clg b) ≤ min (lg a) (lg b) + 2 := by
  have e1 := clg_le_clg_pred_succ a
  have e2 := clg_le_clg_pred_succ b
  have e3 : clg a ≤ clg (a + 1) := clg_mono (by omega)
  have e4 : clg b ≤ clg (b + 1) := clg_mono (by omega)
  have f1 := lg_succ_le a
  have f2 := lg_succ_le b
  have f3 : lg (a - 1) ≤ lg a := lg_mono (by omega)
  have f4 : lg (b - 1) ≤ lg b := lg_mono (by omega)
  have g1 := lg_le_clg a
  have g2 := lg_le_clg b
  rcases hP with h | h | h | h | h <;>
    · have h1 : _ ≤ _ := le_trans (le_max_left _ _) h
      have h2 : _ ≤ _ := le_trans (le_max_right _ _) h
      simp only [min_le_iff, le_min_iff, max_le_iff] at h1 h2 ⊢
      constructor <;> omega

theorem RC_symm {a b : Nat} (h : RC a b) : RC b a := by
  unfold RC at h ⊢
  omega

theorem POK_symm {a b : Nat} (h : POK a b) : POK b a := by
  unfold POK at h ⊢
  rcases h with h | h | h | h | h
  · exact Or.inl (RC_symm h)
  · exact Or.inr (Or.inr (Or.inr (Or.inl (RC_symm h))))
  · exact Or.inr (Or.inr (Or.inr (Or.inr (RC_symm h))))
  · exact Or.inr (Or.inl (RC_symm h))
  · exact Or.inr (Or.inr (Or.inl (RC_symm h)))

/-- When the shift pass triggers (root gap exactly 2, left side deeper in
min height) at a split that is one op away from strict balance, the donor
side is non-trivial and moving a single node restores the root condition. -/
theorem shift_prune {a b : Nat} (ha : 1 ≤ a) (hb : 1 ≤ b) (hP : POK a b)
    (hlt : lg b < lg a)
    (hdiff : min (lg a) (lg b) + 2 ≤ max (clg a) (clg b))
    (hbf1 : clg a ≤ clg b + 1) :
    2 ≤ a ∧ max (clg (a - 1)) (clg (b + 1)) ≤ min (lg (a - 1)) (lg (b + 1)) + 1 := by
  have hmin : min (lg a) (lg b) = lg b := by omega
  set j := lg b with hj
  have hclb1 : clg b ≤ j + 1 := clg_le_lg_succ hb
  have hub := pok_diff_bound ha hb hP
  have hmax : max (clg a) (clg b) ≤ j + 2 := by omega
  have hcla : clg a = j + 2 := by omega
  have hclb : clg b = j + 1 := by omega
  have hagt : 2 ^ (j + 1) < a := lt_clg_iff.1 (by omega)
  have hale : a ≤ 2 ^ (j + 2) := by
    have := le_two_pow_clg a
    rw [hcla] at this
    exact this
  have hbgt : 2 ^ j < b := lt_clg_iff.1 (by omega)
  have hblt : b < 2 ^ (j + 1) := by
    have := lt_two_pow_lg b
    rw [← hj] at this
    exact this
  have hp1 : (1 : Nat) ≤ 2 ^ j := Nat.one_le_two_pow
  have hpj1 : 2 ^ (j + 1) = 2 ^ j + 2 ^ j := by ring
  have hpj2 : 2 ^ (j + 2) = 2 ^ (j + 1) + 2 ^ (j + 1) := by ring
  have ha2 : 2 ≤ a := by omega
  refine ⟨ha2, ?_⟩
  have hlga1 : j + 1 ≤ lg (a - 1) := by
    refine (le_lg_iff ?_).2 ?_ <;> omega
  have hlgb1 : j ≤ lg (b + 1) := by
    refine (le_lg_iff ?_).2 ?_ <;> omega
  have hclb1' : clg (b + 1) ≤ j + 1 := clg_le_iff.2 (by omega)
  have hcla1' : clg (a - 1) ≤ j + 2 := le_trans (clg_mono (by omega)) (le_of_eq hcla)
  -- case analysis over which neighbour of (a, b) satisfies the root condition
  rcases hP with h | h | h | h | h
  · exfalso
    have h1 : clg a ≤ min (lg a) (lg b) + 1 := le_trans (le_max_left _ _) h
    omega
  · exfalso
    have h1 : clg (a + 1) ≤ min (lg (a + 1)) (lg b) + 1 := le_trans (le_max_left _ _) h
    have h2 : clg a ≤ clg (a + 1) := clg_mono (by omega)
    have h3 : min (lg (a + 1)) (lg b) ≤ j := by omega
    omega
  · -- insert into the left side: a = 2 ^ (j + 1) + 1
    have h1 : clg (a - 1) ≤ min (lg (a - 1)) (lg b) + 1 := le_trans (le_max_left _ _) h
    have h2 : clg (a - 1) ≤ j + 1 := by omega
    have h3 : a - 1 ≤ 2 ^ (j + 1) := by
      have := le_two_pow_clg (a - 1)
      calc a - 1 ≤ 2 ^ clg (a - 1) := this
      _ ≤ 2 ^ (j + 1) := Nat.pow_le_pow_right (by omega) h2
    have hae : a = 2 ^ (j + 1) + 1 := by omega
    have h4 : clg (a - 1) = j + 1 := by
      have h5 : a - 1 = 2 ^ (j + 1) := by omega
      rw [h5, clg_two_pow]
    have h6 : lg (a - 1) = j + 1 := by
      have h5 : a - 1 = 2 ^ (j + 1) := by omega
      rw [h5, lg_two_pow]
    omega
  · -- delete from the right side: b + 1 = 2 ^ (j + 1)
    have h1 : clg a ≤ min (lg a) (lg (b + 1)) + 1 := le_trans (le_max_left _ _) h
    have h2 : j + 1 ≤ lg (b + 1) := by omega
    have h3 : 2 ^ (j + 1) ≤ b + 1 := by
      have := two_pow_lg_le (show 1 ≤ b + 1 by omega)
      calc 2 ^ (j + 1) ≤ 2 ^ lg (b + 1) := Nat.pow_le_pow_right (by omega) h2
      _ ≤ b + 1 := this
    have hbe : b + 1 = 2 ^ (j + 1) := by omega
    have h4 : clg (b + 1) = j + 1 := by rw [hbe, clg_two_pow]
    have h5 : lg (b + 1) = j + 1 := by rw [hbe, lg_two_pow]
    omega
  · exfalso
    have h1 : clg a ≤ min (lg a) (lg (b - 1)) + 1 := le_trans (le_max_left _ _) h
    have h2 : lg (b - 1) ≤ j := lg_mono (by omega)
    omega

/-- When an AVL rotation triggers at a split one op away from strict
balance, the split is pinned down: the lighter side is a perfect tree of
size `2 ^ j - 1` and the heavier side has `2 ^ (j + 1)` nodes (or, in the
delete-triggered corner case, sizes 3 and 0). -/
theorem rot_prune {a b : Nat} (ha : 1 ≤ a) (hb : 1 ≤ b) (hP : POK a b)
    (hbf : clg a = clg b + 2) :
    lg b = clg b ∧ b = 2 ^ clg b ∧
      (a = 2 ^ (clg b + 1) + 1 ∨ (clg b = 0 ∧ a = 4)) := by
  set j := clg b with hj
  have hlgb : lg b ≤ j := lg_le_clg b
  have hclb1 : clg b ≤ lg b + 1 := clg_le_lg_succ hb
  have hcla1 : clg a ≤ lg a + 1 := clg_le_lg_succ ha
  have hble : b ≤ 2 ^ j := le_two_pow_clg b
  have hagt : 2 ^ (j + 1) < a := lt_clg_iff.1 (by omega)
  have hale : a ≤ 2 ^ (j + 2) := by
    have := le_two_pow_clg a
    rw [hbf] at this
    exact this
  have hp1 : (1 : Nat) ≤ 2 ^ j := Nat.one_le_two_pow
  have hpj1 : 2 ^ (j + 1) = 2 ^ j + 2 ^ j := by ring
  have hpj2 : 2 ^ (j + 2) = 2 ^ (j + 1) + 2 ^ (j + 1) := by ring
  rcases hP with h | h | h | h | h
  · exfalso
    have h1 : clg a ≤ min (lg a) (lg b) + 1 := le_trans (le_max_left _ _) h
    omega
  · exfalso
    have h1 : clg (a + 1) ≤ min (lg (a + 1)) (lg b) + 1 := le_trans (le_max_left _ _) h
    have h2 : clg a ≤ clg (a + 1) := clg_mono (by omega)
    have h3 : min (lg (a + 1)) (lg b) ≤ lg b := min_le_right _ _
    omega
  · -- insert into the left side
    have h1 : clg (a - 1) ≤ min (lg (a - 1)) (lg b) + 1 := le_trans (le_max_left _ _) h
    have h2 : clg a ≤ clg (a - 1) + 1 := clg_le_clg_pred_succ a
    have h3 : lg b = j := by omega
    have h4 : b = 2 ^ j := by
      have h5 : 2 ^ j ≤ b := by
        have := two_pow_lg_le hb
        rw [h3] at this
        exact this
      omega
    have h6 : clg (a - 1) ≤ j + 1 := by omega
    have h7 : a - 1 ≤ 2 ^ (j + 1) := by
      calc a - 1 ≤ 2 ^ clg (a - 1) := le_two_pow_clg (a - 1)
      _ ≤ 2 ^ (j + 1) := Nat.pow_le_pow_right (by omega) h6
    exact ⟨h3, h4, Or.inl (by omega)⟩
  · -- delete from the right side: forces b = 1
    have h1 : clg a ≤ min (lg a) (lg (b + 1)) + 1 := le_trans (le_max_left _ _) h
    have h2 : lg (b + 1) ≤ lg b + 1 := lg_succ_le b
    have h3 : j + 1 ≤ lg (b + 1) := by omega
    -- so the floor log strictly increases at b + 1, hence b + 1 = 2 ^ (j + 1)
    have h4 : 2 ^ (j + 1) ≤ b + 1 := by
      have := two_pow_lg_le (show 1 ≤ b + 1 by omega)
      calc 2 ^ (j + 1) ≤ 2 ^ lg (b + 1) := Nat.pow_le_pow_right (by omega) h3
      _ ≤ b + 1 := this
    have hb1 : b = 1 := by omega
    have hj0 : j = 0 := by
      rw [hb1] at hj
      simpa using hj
    have hlgb0 : lg b = 0 := by rw [hb1]; simp
    have hbe : b = 2 ^ j := by rw [hb1, hj0]; simp
    refine ⟨by omega, hbe, ?_⟩
    rw [hj0] at hagt hale ⊢
    norm_num at hagt hale
    rcases Nat.lt_or_ge a 4 with h5 | h5
    · exact Or.inl (by omega)
    · exact Or.inr ⟨rfl, by omega⟩
  · exfalso
    have h1 : clg a ≤ min (lg a) (lg (b - 1)) + 1 := le_trans (le_max_left _ _) h
    have h2 : lg (b - 1) ≤ lg b := lg_mono (by omega)
    omega

/-- The rigid split of a strictly balanced tree with `2 ^ (j + 1)` nodes:
its children hold `2 ^ j - 1` and `2 ^ j` nodes in one of the two orders. -/
theorem rigid_split {p q j : Nat} (hp : 1 ≤ p) (hq : 1 ≤ q)
    (hsum : p + q = 2 ^ (j + 1) + 1)
    (hmin : j ≤ min (lg p) (lg q)) :
    (p = 2 ^ j ∧ q = 2 ^ j + 1) ∨ (p = 2 ^ j + 1 ∧ q = 2 ^ j) := by
  have h1 : 2 ^ j ≤ p := by
    have := two_pow_lg_le hp
    calc 2 ^ j ≤ 2 ^ lg p := Nat.pow_le_pow_right (by omega) (by omega)
    _ ≤ p := this
  have h2 : 2 ^ j ≤ q := by
    have := two_pow_lg_le hq
    calc 2 ^ j ≤ 2 ^ lg q := Nat.pow_le_pow_right (by omega) (by omega)
    _ ≤ q := this
  have hpj1 : 2 ^ (j + 1) = 2 ^ j + 2 ^ j := by ring
  omega

/-! ### Tree-level helpers for the rebalancing specification -/

theorem tsize_upd {v : α} {l r : T α} : tsize (upd v l r) = 1 + tsize l + tsize r := rfl

theorem rh_upd {v : α} {l r : T α} : rh (upd v l r) = 1 + max (rh l) (rh r) := rfl

theorem rmh_upd {v : α} {l r : T α} : rmh (upd v l r) = 1 + min (rmh l) (rmh r) := rfl

theorem Accurate_upd {v : α} {l r : T α} (hl : Accurate l = true)
    (hr : Accurate r = true) : Accurate (upd v l r) = true := by
  obtain ⟨h1, h2⟩ := accurate_stored hl
  obtain ⟨h3, h4⟩ := accurate_stored hr
  rw [upd, Accurate_node]
  exact ⟨hl, hr, by rw [h1, h3], by rw [h2, h4]⟩

theorem StrictBal_upd {v : α} {l r : T α} :
    StrictBal (upd v l r) = true ↔
      StrictBal l = true ∧ StrictBal r = true ∧
        max (rh l) (rh r) ≤ min (rmh l) (rmh r) + 1 := StrictBal_node

/-- Stored attributes of a strictly balanced accurate tree are the logs of
its size plus one. -/
theorem stored_logs {t : T α} (hs : StrictBal t = true) (ha : Accurate t = true) :
    get_height t = clg (tsize t + 1) ∧ get_min_height t = lg (tsize t + 1) := by
  obtain ⟨h1, h2⟩ := accurate_stored ha
  obtain ⟨h3, h4⟩ := sb_heights hs
  exact ⟨by rw [h1, h3], by rw [h2, h4]⟩

/-- The fuel-indexed computation `m` eventually always returns `t'`. -/
def Outcome (m : Nat → Option (T α)) (t' : T α) : Prop :=
  ∃ f0, ∀ f, f0 ≤ f → m f = some t'

/-! ### The simultaneous specification of the rebalancing family

Proved by strong induction on `k`, which dominates twice the size of the
argument (plus a constant depending on the function).  Each spec asserts
success for all sufficiently large fuel, preservation of strict balance and
accuracy, the size change, and the effect on the in-order traversal. -/

@[reducible] def BalSpec (α : Type) (k : Nat) : Prop :=
  ∀ (v : α) (l r : T α) (hh mm : Nat),
    2 * (tsize l + tsize r + 1) ≤ k →
    StrictBal l = true → StrictBal r = true →
    Accurate l = true → Accurate r = true →
    POK (tsize l + 1) (tsize r + 1) →
    ∃ t', Outcome (fun f => balance f (.node v l r hh mm)) t' ∧
      StrictBal t' = true ∧ Accurate t' = true ∧
      tsize t' = tsize l + tsize r + 1 ∧
      to_list t' = to_list l ++ v :: to_list r

@[reducible] def InsMinSpec (α : Type) (k : Nat) : Prop :=
  ∀ (t : T α) (v : α), 2 * tsize t + 3 ≤ k →
    StrictBal t = true → Accurate t = true →
    ∃ t', Outcome (fun f => insert_min f t v) t' ∧
      StrictBal t' = true ∧ Accurate t' = true ∧
      tsize t' = tsize t + 1 ∧ to_list t' = v :: to_list t

@[reducible] def InsMaxSpec (α : Type) (k : Nat) : Prop :=
  ∀ (t : T α) (v : α), 2 * tsize t + 3 ≤ k →
    StrictBal t = true → Accurate t = true →
    ∃ t', Outcome (fun f => insert_max f t v) t' ∧
      StrictBal t' = true ∧ Accurate t' = true ∧
      tsize t' = tsize t + 1 ∧ to_list t' = to_list t ++ [v]

@[reducible] def DelMaxSpec (α : Type) (k : Nat) : Prop :=
  ∀ t : T α, 2 * tsize t + 1 ≤ k →
    StrictBal t = true → Accurate t = true →
    ∃ t', Outcome (fun f => delete_max f t) t' ∧
      StrictBal t' = true ∧ Accurate t' = true ∧
      tsize t' = tsize t - 1 ∧ to_list t' = (to_list t).dropLast

@[reducible] def DelMinSpec (α : Type) (k : Nat) : Prop :=
  ∀ t : T α, 2 * tsize t + 1 ≤ k →
    StrictBal t = true → Accurate t = true →
    ∃ t', Outcome (fun f => delete_min f t) t' ∧
      StrictBal t' = true ∧ Accurate t' = true ∧
      tsize t' = tsize t - 1 ∧ to_list t' = (to_list t).tail

/-- The root of a strictly balanced node satisfies the size-level root
condition. -/
theorem sb_root_rc {v : α} {l r : T α} {hh mm : Nat}
    (hs : StrictBal (T.node v l r hh mm) = true) :
    RC (tsize l + 1) (tsize r + 1) := by
  rw [StrictBal_node] at hs
  obtain ⟨hl, hr, hroot⟩ := hs
  obtain ⟨h1, h2⟩ := sb_heights hl
  obtain ⟨h3, h4⟩ := sb_heights hr
  unfold RC
  rw [← h1, ← h2, ← h3, ← h4]
  exact hroot

theorem delMax_step {α : Type} {k : Nat}
    (IH : ∀ j, j < k → BalSpec α j ∧ InsMinSpec α j ∧ InsMaxSpec α j ∧
      DelMaxSpec α j ∧ DelMinSpec α j) : DelMaxSpec α k := by
  intro t hk hs ha
  cases t with
  | nil =>
    refine ⟨.nil, ⟨1, ?_⟩, rfl, rfl, rfl, rfl⟩
    intro f hf
    obtain ⟨g, rfl⟩ : ∃ g, f = g + 1 := ⟨f - 1, by omega⟩
    rfl
  | node v l r hh mm =>
    have hs0 := hs
    rw [StrictBal_node] at hs
    rw [Accurate_node] at ha
    cases r with
    | nil =>
      refine ⟨l, ⟨1, ?_⟩, hs.1, ha.1, ?_, ?_⟩
      · intro f hf
        obtain ⟨g, rfl⟩ : ∃ g, f = g + 1 := ⟨f - 1, by omega⟩
        rfl
      · simp [tsize]
      · rw [to_list_node, to_list_nil]
        simp
    | node rv rl rr rh2 rm2 =>
      have hsz : tsize (T.node rv rl rr rh2 rm2) =
          1 + tsize rl + tsize rr := rfl
      have hszt : tsize (T.node v l (T.node rv rl rr rh2 rm2) hh mm) =
          1 + tsize l + tsize (T.node rv rl rr rh2 rm2) := rfl
      obtain ⟨r', ⟨f1, h1⟩, hsr', har', hzr', htr'⟩ :=
        (IH (2 * tsize (T.node rv rl rr rh2 rm2) + 1) (by omega)).2.2.2.1
          (T.node rv rl rr rh2 rm2) (by omega) hs.2.1 ha.2.1
      have hrc : RC (tsize l + 1) (tsize (T.node rv rl rr rh2 rm2) + 1) :=
        sb_root_rc hs0
      obtain ⟨t', ⟨f2, h2⟩, hst', hat', hzt', htt'⟩ :=
        (IH (2 * (tsize l + tsize r' + 1)) (by omega)).1 v l r' hh mm
          (by omega) hs.1 hsr' ha.1 har'
          (by
            right; right; right; left
            have : tsize r' + 1 + 1 = tsize (T.node rv rl rr rh2 rm2) + 1 := by
              omega
            rw [this]
            exact hrc)
      refine ⟨t', ⟨max f1 f2 + 1, ?_⟩, hst', hat', by omega, ?_⟩
      · intro f hf
        obtain ⟨g, rfl⟩ : ∃ g, f = g + 1 := ⟨f - 1, by omega⟩
        have hg1 : delete_max g (T.node rv rl rr rh2 rm2) = some r' := h1 g (by omega)
        have hg2 : balance g (T.node v l r' hh mm) = some t' := h2 g (by omega)
        show (delete_max g (T.node rv rl rr rh2 rm2)).bind
          (fun r' => balance g (T.node v l r' hh mm)) = some t'
        rw [hg1]
        exact hg2
      · have hne : to_list (T.node rv rl rr rh2 rm2) ≠ [] := by
          rw [Ne, to_list_eq_nil_iff]; simp
        have hrhs : to_list (T.node v l (T.node rv rl rr rh2 rm2) hh mm) =
            to_list l ++ v :: to_list (T.node rv rl rr rh2 rm2) := to_list_node
        rw [htt', htr', hrhs, List.dropLast_append_cons,
          List.dropLast_cons_of_ne_nil hne]

theorem delMin_step {α : Type} {k : Nat}
    (IH : ∀ j, j < k → BalSpec α j ∧ InsMinSpec α j ∧ InsMaxSpec α j ∧
      DelMaxSpec α j ∧ DelMinSpec α j) : DelMinSpec α k := by
  intro t hk hs ha
  cases t with
  | nil =>
    refine ⟨.nil, ⟨1, ?_⟩, rfl, rfl, rfl, rfl⟩
    intro f hf
    obtain ⟨g, rfl⟩ : ∃ g, f = g + 1 := ⟨f - 1, by omega⟩
    rfl
  | node v l r hh mm =>
    have hs0 := hs
    rw [StrictBal_node] at hs
    rw [Accurate_node] at ha
    cases l with
    | nil =>
      refine ⟨r, ⟨1, ?_⟩, hs.2.1, ha.2.1, ?_, ?_⟩
      · intro f hf
        obtain ⟨g, rfl⟩ : ∃ g, f = g + 1 := ⟨f - 1, by omega⟩
        rfl
      · simp [tsize]
      · rw [to_list_node, to_list_nil]
        simp
    | node lv ll lr lh2 lm2 =>
      have hsz : tsize (T.node lv ll lr lh2 lm2) =
          1 + tsize ll + tsize lr := rfl
      have hszt : tsize (T.node v (T.node lv ll lr lh2 lm2) r hh mm) =
          1 + tsize (T.node lv ll lr lh2 lm2) + tsize r := rfl
      obtain ⟨l', ⟨f1, h1⟩, hsl', hal', hzl', htl'⟩ :=
        (IH (2 * tsize (T.node lv ll lr lh2 lm2) + 1) (by omega)).2.2.2.2
          (T.node lv ll lr lh2 lm2) (by omega) hs.1 ha.1
      have hrc : RC (tsize (T.node lv ll lr lh2 lm2) + 1) (tsize r + 1) :=
        sb_root_rc hs0
      obtain ⟨t', ⟨f2, h2⟩, hst', hat', hzt', htt'⟩ :=
        (IH (2 * (tsize l' + tsize r + 1)) (by omega)).1 v l' r hh mm
          (by omega) hsl' hs.2.1 hal' ha.2.1
          (by
            right; left
            have : tsize l' + 1 + 1 = tsize (T.node lv ll lr lh2 lm2) + 1 := by
              omega
            rw [this]
            exact hrc)
      refine ⟨t', ⟨max f1 f2 + 1, ?_⟩, hst', hat', by omega, ?_⟩
      · intro f hf
        obtain ⟨g, rfl⟩ : ∃ g, f = g + 1 := ⟨f - 1, by omega⟩
        have hg1 : delete_min g (T.node lv ll lr lh2 lm2) = some l' := h1 g (by omega)
        have hg2 : balance g (T.node v l' r hh mm) = some t' := h2 g (by omega)
        show (delete_min g (T.node lv ll lr lh2 lm2)).bind
          (fun l' => balance g (T.node v l' r hh mm)) = some t'
        rw [hg1]
        exact hg2
      · have hne : to_list (T.node lv ll lr lh2 lm2) ≠ [] := by
          rw [Ne, to_list_eq_nil_iff]; simp
        have hrhs : to_list (T.node v (T.node lv ll lr lh2 lm2) r hh mm) =
            to_list (T.node lv ll lr lh2 lm2) ++ v :: to_list r := to_list_node
        rw [htt', htl', hrhs, List.tail_append_of_ne_nil hne]

theorem insMin_step {α : Type} {k : Nat}
    (IH : ∀ j, j < k → BalSpec α j ∧ InsMinSpec α j ∧ InsMaxSpec α j ∧
      DelMaxSpec α j ∧ DelMinSpec α j) : InsMinSpec α k := by
  intro t v hk hs ha
  cases t with
  | nil =>
    refine ⟨.node v .nil .nil 1 1, ⟨1, ?_⟩, rfl, rfl, rfl, rfl⟩
    intro f hf
    obtain ⟨g, rfl⟩ : ∃ g, f = g + 1 := ⟨f - 1, by omega⟩
    rfl
  | node nv l r hh mm =>
    have hs0 := hs
    rw [StrictBal_node] at hs
    rw [Accurate_node] at ha
    have hszt : tsize (T.node nv l r hh mm) = 1 + tsize l + tsize r := rfl
    obtain ⟨l', ⟨f1, h1⟩, hsl', hal', hzl', htl'⟩ :=
      (IH (2 * tsize l + 3) (by omega)).2.1 l v (by omega) hs.1 ha.1
    have hrc : RC (tsize l + 1) (tsize r + 1) :=
      sb_root_rc hs0
    obtain ⟨t', ⟨f2, h2⟩, hst', hat', hzt', htt'⟩ :=
      (IH (2 * (tsize l' + tsize r + 1)) (by omega)).1 nv l' r hh mm
        (by omega) hsl' hs.2.1 hal' ha.2.1
        (by
          right; right; left
          have : tsize l' + 1 - 1 = tsize l + 1 := by omega
          rw [this]
          exact hrc)
    refine ⟨t', ⟨max f1 f2 + 1, ?_⟩, hst', hat', by omega, ?_⟩
    · intro f hf
      obtain ⟨g, rfl⟩ : ∃ g, f = g + 1 := ⟨f - 1, by omega⟩
      have hg1 : insert_min g l v = some l' := h1 g (by omega)
      have hg2 : balance g (T.node nv l' r hh mm) = some t' := h2 g (by omega)
      show (insert_min g l v).bind (fun l' => balance g (T.node nv l' r hh mm)) = some t'
      rw [hg1]
      exact hg2
    · rw [htt', htl', to_list_node]
      simp

theorem insMax_step {α : Type} {k : Nat}
    (IH : ∀ j, j < k → BalSpec α j ∧ InsMinSpec α j ∧ InsMaxSpec α j ∧
      DelMaxSpec α j ∧ DelMinSpec α j) : InsMaxSpec α k := by
  intro t v hk hs ha
  cases t with
  | nil =>
    refine ⟨.node v .nil .nil 1 1, ⟨1, ?_⟩, rfl, rfl, rfl, rfl⟩
    intro f hf
    obtain ⟨g, rfl⟩ : ∃ g, f = g + 1 := ⟨f - 1, by omega⟩
    rfl
  | node nv l r hh mm =>
    have hs0 := hs
    rw [StrictBal_node] at hs
    rw [Accurate_node] at ha
    have hszt : tsize (T.node nv l r hh mm) = 1 + tsize l + tsize r := rfl
    obtain ⟨r', ⟨f1, h1⟩, hsr', har', hzr', htr'⟩ :=
      (IH (2 * tsize r + 3) (by omega)).2.2.1 r v (by omega) hs.2.1 ha.2.1
    have hrc : RC (tsize l + 1) (tsize r + 1) :=
      sb_root_rc hs0
    obtain ⟨t', ⟨f2, h2⟩, hst', hat', hzt', htt'⟩ :=
      (IH (2 * (tsize l + tsize r' + 1)) (by omega)).1 nv l r' hh mm
        (by omega) hs.1 hsr' ha.1 har'
        (by
          right; right; right; right
          have : tsize r' + 1 - 1 = tsize r + 1 := by omega
          rw [this]
          exact hrc)
    refine ⟨t', ⟨max f1 f2 + 1, ?_⟩, hst', hat', by omega, ?_⟩
    · intro f hf
      obtain ⟨g, rfl⟩ : ∃ g, f = g + 1 := ⟨f - 1, by omega⟩
      have hg1 : insert_max g r v = some r' := h1 g (by omega)
      have hg2 : balance g (T.node nv l r' hh mm) = some t' := h2 g (by omega)
      show (insert_max g r v).bind (fun r' => balance g (T.node nv l r' hh mm)) = some t'
      rw [hg1]
      exact hg2
    · rw [htt', htr', to_list_node]
      simp

/-- The no-rotation case of `MyTree._balance`: the stored balance factor is
within one, so only the shift pass may fire. -/
theorem bal_norot {α : Type} (v : α) (l r : T α) (hh mm : Nat)
    (hsl : StrictBal l = true) (hsr : StrictBal r = true)
    (hal : Accurate l = true) (har : Accurate r = true)
    (hP : POK (tsize l + 1) (tsize r + 1))
    (hbf1 : clg (tsize l + 1) ≤ clg (tsize r + 1) + 1)
    (hbf2 : clg (tsize r + 1) ≤ clg (tsize l + 1) + 1)
    (hDM : DelMaxSpec α (2 * tsize l + 1))
    (hIm : 1 ≤ tsize l → InsMinSpec α (2 * tsize r + 3))
    (hDm : DelMinSpec α (2 * tsize r + 1))
    (hIM : 1 ≤ tsize r → InsMaxSpec α (2 * tsize l + 3)) :
    ∃ t', Outcome (fun f => balance f (.node v l r hh mm)) t' ∧
      StrictBal t' = true ∧ Accurate t' = true ∧
      tsize t' = tsize l + tsize r + 1 ∧
      to_list t' = to_list l ++ v :: to_list r := by
  obtain ⟨hgl, hml⟩ := stored_logs hsl hal
  obtain ⟨hgr, hmr⟩ := stored_logs hsr har
  obtain ⟨hrl, hrml⟩ := sb_heights hsl
  obtain ⟨hrr, hrmr⟩ := sb_heights hsr
  have havl : avl_balance (T.node v l r hh mm) = some (upd v l r) := by
    simp only [avl_balance]
    rw [if_neg (by rw [hgl, hgr]; push_cast; omega),
      if_neg (by rw [hgl, hgr]; push_cast; omega)]
  have hghu : get_height (upd v l r) = 1 + max (get_height l) (get_height r) := rfl
  have hgmu : get_min_height (upd v l r) =
      1 + min (get_min_height l) (get_min_height r) := rfl
  rcases Nat.lt_or_ge (min (lg (tsize l + 1)) (lg (tsize r + 1)) + 1)
      (max (clg (tsize l + 1)) (clg (tsize r + 1))) with hdiff | hdiff
  · -- the shift pass fires
    have hcond : 1 < (get_height (upd v l r) : Int) -
        (get_min_height (upd v l r) : Int) := by
      rw [hghu, hgmu, hgl, hgr, hml, hmr]
      push_cast
      omega
    rcases Nat.lt_or_ge (lg (tsize r + 1)) (lg (tsize l + 1)) with hlt | hge
    · -- right shift
      have hcond2 : 0 < (get_min_height (leftOf (upd v l r)) : Int) -
          (get_min_height (rightOf (upd v l r)) : Int) := by
        show 0 < (get_min_height l : Int) - (get_min_height r : Int)
        rw [hml, hmr]
        push_cast
        omega
      obtain ⟨h2a, htarget⟩ := shift_prune (by omega) (by omega) hP hlt
        (by omega) hbf1
      have hlnil : l ≠ T.nil := by
        intro h
        rw [h] at h2a
        simp [tsize] at h2a
      have hlne : to_list l ≠ [] := by rwa [Ne, to_list_eq_nil_iff]
      obtain ⟨mx, hmx⟩ : ∃ mx, get_max_node l = some mx := by
        rw [get_max_node_spec]
        cases hc : (to_list l).getLast? with
        | none => exact absurd (List.getLast?_eq_none_iff.1 hc) hlne
        | some m => exact ⟨m, rfl⟩
      obtain ⟨l', ⟨f1, h1⟩, hsl', hal', hzl', htl'⟩ :=
        hDM l (by omega) hsl hal
      obtain ⟨r', ⟨f2, h2⟩, hsr', har', hzr', htr'⟩ :=
        hIm (by omega) r v (by omega) hsr har
      obtain ⟨hrl', hrml'⟩ := sb_heights hsl'
      obtain ⟨hrr', hrmr'⟩ := sb_heights hsr'
      refine ⟨upd mx l' r', ⟨max f1 f2 + 2, ?_⟩, ?_, ?_, ?_, ?_⟩
      · intro f hf
        obtain ⟨g, rfl⟩ : ∃ g, f = g + 2 := ⟨f - 2, by omega⟩
        show (match avl_balance (T.node v l r hh mm) with
          | none => none
          | some t' =>
            if 1 < (get_height t' : Int) - (get_min_height t' : Int) then
              if 0 < (get_min_height (leftOf t') : Int) -
                  (get_min_height (rightOf t') : Int) then
                right_shift (g + 1) t'
              else left_shift (g + 1) t'
            else some t') = some (upd mx l' r')
        rw [havl]
        dsimp only
        rw [if_pos hcond, if_pos hcond2]
        show (get_max_node l).bind (fun mx =>
          (delete_max g l).bind (fun l' =>
            (insert_min g r v).bind (fun r' => some (upd mx l' r')))) =
          some (upd mx l' r')
        have hb1 : delete_max g l = some l' := h1 g (by omega)
        have hb2 : insert_min g r v = some r' := h2 g (by omega)
        rw [hmx, hb1, hb2]
        rfl
      · rw [StrictBal_upd]
        refine ⟨hsl', hsr', ?_⟩
        rw [hrl', hrml', hrr', hrmr', hzl', hzr']
        have he1 : tsize l - 1 + 1 = tsize l + 1 - 1 := by omega
        have he2 : tsize r + 1 + 1 = tsize r + 1 + 1 := rfl
        rw [he1]
        exact htarget
      · exact Accurate_upd hal' har'
      · rw [tsize_upd, hzl', hzr']
        omega
      · rw [to_list_upd, htl', htr']
        have hmem : mx ∈ (to_list l).getLast? := by
          rw [← get_max_node_spec, hmx]; rfl
        have := List.dropLast_append_getLast? mx hmem
        calc (to_list l).dropLast ++ mx :: v :: to_list r
            = ((to_list l).dropLast ++ [mx]) ++ v :: to_list r := by simp
        _ = to_list l ++ v :: to_list r := by rw [this]
    · -- left shift
      have hne : lg (tsize l + 1) ≠ lg (tsize r + 1) := by
        intro he
        have c1 : clg (tsize l + 1) ≤ lg (tsize l + 1) + 1 :=
          clg_le_lg_succ (by omega)
        have c2 : clg (tsize r + 1) ≤ lg (tsize r + 1) + 1 :=
          clg_le_lg_succ (by omega)
        omega
      have hlt' : lg (tsize l + 1) < lg (tsize r + 1) := by omega
      have hcond2 : ¬ (0 < (get_min_height (leftOf (upd v l r)) : Int) -
          (get_min_height (rightOf (upd v l r)) : Int)) := by
        show ¬ (0 < (get_min_height l : Int) - (get_min_height r : Int))
        rw [hml, hmr]
        push_cast
        omega
      obtain ⟨h2b, htarget⟩ := shift_prune (by omega) (by omega) (POK_symm hP)
        hlt' (by omega) hbf2
      have hrnil : r ≠ T.nil := by
        intro h
        rw [h] at h2b
        simp [tsize] at h2b
      have hrne : to_list r ≠ [] := by rwa [Ne, to_list_eq_nil_iff]
      obtain ⟨mn, hmn⟩ : ∃ mn, get_min_node r = some mn := by
        rw [get_min_node_spec]
        cases hc : (to_list r).head? with
        | none => exact absurd (List.head?_eq_none_iff.1 hc) hrne
        | some m => exact ⟨m, rfl⟩
      obtain ⟨r', ⟨f1, h1⟩, hsr', har', hzr', htr'⟩ :=
        hDm r (by omega) hsr har
      obtain ⟨l', ⟨f2, h2⟩, hsl', hal', hzl', htl'⟩ :=
        hIM (by omega) l v (by omega) hsl hal
      obtain ⟨hrl', hrml'⟩ := sb_heights hsl'
      obtain ⟨hrr', hrmr'⟩ := sb_heights hsr'
      refine ⟨upd mn l' r', ⟨max f1 f2 + 2, ?_⟩, ?_, ?_, ?_, ?_⟩
      · intro f hf
        obtain ⟨g, rfl⟩ : ∃ g, f = g + 2 := ⟨f - 2, by omega⟩
        show (match avl_balance (T.node v l r hh mm) with
          | none => none
          | some t' =>
            if 1 < (get_height t' : Int) - (get_min_height t' : Int) then
              if 0 < (get_min_height (leftOf t') : Int) -
                  (get_min_height (rightOf t') : Int) then
                right_shift (g + 1) t'
              else left_shift (g + 1) t'
            else some t') = some (upd mn l' r')
        rw [havl]
        dsimp only
        rw [if_pos hcond, if_neg hcond2]
        show (get_min_node r).bind (fun mn =>
          (delete_min g r).bind (fun r' =>
            (insert_max g l v).bind (fun l' => some (upd mn l' r')))) =
          some (upd mn l' r')
        have hb1 : delete_min g r = some r' := h1 g (by omega)
        have hb2 : insert_max g l v = some l' := h2 g (by omega)
        rw [hmn, hb1, hb2]
        rfl
      · rw [StrictBal_upd]
        refine ⟨hsl', hsr', ?_⟩
        rw [hrl', hrml', hrr', hrmr', hzl', hzr']
        have he1 : tsize r - 1 + 1 = tsize r + 1 - 1 := by omega
        rw [he1]
        have := htarget
        omega
      · exact Accurate_upd hal' har'
      · rw [tsize_upd, hzl', hzr']
        omega
      · rw [to_list_upd, htl', htr']
        have hhead : (to_list r).head? = some mn := by
          rw [← get_min_node_spec, hmn]
        have hcons : mn :: (to_list r).tail = to_list r := by
          cases hc : to_list r with
          | nil => exact absurd hc hrne
          | cons x xs =>
            rw [hc] at hhead
            simp at hhead
            rw [hhead]
            rfl
        calc (to_list l ++ [v]) ++ mn :: (to_list r).tail
            = to_list l ++ [v] ++ (mn :: (to_list r).tail) := by simp
        _ = to_list l ++ v :: to_list r := by rw [hcons]; simp
  · -- already strictly balanced: no shift
    have hcond : ¬ (1 < (get_height (upd v l r) : Int) -
        (get_min_height (upd v l r) : Int)) := by
      rw [hghu, hgmu, hgl, hgr, hml, hmr]
      push_cast
      omega
    refine ⟨upd v l r, ⟨1, ?_⟩, ?_, Accurate_upd hal har, by rw [tsize_upd]; omega,
      to_list_upd⟩
    · intro f hf
      obtain ⟨g, rfl⟩ : ∃ g, f = g + 1 := ⟨f - 1, by omega⟩
      show (match avl_balance (T.node v l r hh mm) with
        | none => none
        | some t' =>
          if 1 < (get_height t' : Int) - (get_min_height t' : Int) then
            if 0 < (get_min_height (leftOf t') : Int) -
                (get_min_height (rightOf t') : Int) then
              right_shift g t'
            else left_shift g t'
          else some t') = some (upd v l r)
      rw [havl]
      dsimp only
      rw [if_neg hcond]
    · rw [StrictBal_upd]
      refine ⟨hsl, hsr, ?_⟩
      rw [hrl, hrml, hrr, hrmr]
      omega

/-- Evaluating one step of `balance` when the AVL phase returns a tree for
which the shift pass does not fire. -/
theorem balance_succ_noshift {t T' : T α} (havl : avl_balance t = some T')
    (hcond : ¬ (1 < (get_height T' : Int) - (get_min_height T' : Int))) (g : Nat) :
    balance (g + 1) t = some T' := by
  show (match avl_balance t with
    | none => none
    | some u =>
      if 1 < (get_height u : Int) - (get_min_height u : Int) then
        if 0 < (get_min_height (leftOf u) : Int) -
            (get_min_height (rightOf u) : Int) then
          right_shift g u
        else left_shift g u
      else some u) = some T'
  rw [havl]
  dsimp only
  rw [if_neg hcond]

/-- `AVLTree._balance` in the left-heavy single-rotation case. -/
theorem avl_rotR_single (v lv : α) (ll lr r : T α) (lh2 lm2 hh mm : Nat)
    (hgt : 1 < (get_height (T.node lv ll lr lh2 lm2) : Int) - (get_height r : Int))
    (hbal : ¬ (get_balance (T.node lv ll lr lh2 lm2) < 0)) :
    avl_balance (T.node v (T.node lv ll lr lh2 lm2) r hh mm) =
      some (upd lv ll (upd v lr r)) := by
  simp only [avl_balance]
  rw [if_pos hgt, if_neg hbal]
  rfl

/-- `AVLTree._balance` in the left-heavy double-rotation case. -/
theorem avl_rotR_double (v lv lrv : α) (ll lrl lrr r : T α)
    (lrh2 lrm2 lh2 lm2 hh mm : Nat)
    (hgt : 1 < (get_height (T.node lv ll (T.node lrv lrl lrr lrh2 lrm2) lh2 lm2) : Int)
      - (get_height r : Int))
    (hbal : get_balance (T.node lv ll (T.node lrv lrl lrr lrh2 lrm2) lh2 lm2) < 0) :
    avl_balance (T.node v (T.node lv ll (T.node lrv lrl lrr lrh2 lrm2) lh2 lm2) r hh mm) =
      some (upd lrv (upd lv ll lrl) (upd v lrr r)) := by
  simp only [avl_balance]
  rw [if_pos hgt, if_pos hbal]
  rfl

/-- `AVLTree._balance` in the right-heavy single-rotation case. -/
theorem avl_rotL_single (v rv : α) (l rl rr : T α) (rh2 rm2 hh mm : Nat)
    (hgt : ¬ (1 < (get_height l : Int) - (get_height (T.node rv rl rr rh2 rm2) : Int)))
    (hlt : (get_height l : Int) - (get_height (T.node rv rl rr rh2 rm2) : Int) < -1)
    (hbal : ¬ (0 < get_balance (T.node rv rl rr rh2 rm2))) :
    avl_balance (T.node v l (T.node rv rl rr rh2 rm2) hh mm) =
      some (upd rv (upd v l rl) rr) := by
  simp only [avl_balance]
  rw [if_neg hgt, if_pos hlt, if_neg hbal]
  rfl

/-- `AVLTree._balance` in the right-heavy double-rotation case. -/
theorem avl_rotL_double (v rv rlv : α) (l rll rlr rr : T α)
    (rlh2 rlm2 rh2 rm2 hh mm : Nat)
    (hgt : ¬ (1 < (get_height l : Int)
      - (get_height (T.node rv (T.node rlv rll rlr rlh2 rlm2) rr rh2 rm2) : Int)))
    (hlt : (get_height l : Int)
      - (get_height (T.node rv (T.node rlv rll rlr rlh2 rlm2) rr rh2 rm2) : Int) < -1)
    (hbal : 0 < get_balance (T.node rv (T.node rlv rll rlr rlh2 rlm2) rr rh2 rm2)) :
    avl_balance (T.node v l (T.node rv (T.node rlv rll rlr rlh2 rlm2) rr rh2 rm2) hh mm) =
      some (upd rlv (upd v l rll) (upd rv rlr rr)) := by
  simp only [avl_balance]
  rw [if_neg hgt, if_pos hlt, if_pos hbal]
  rfl

/-- The left-heavy rotation case of `MyTree._balance` (stored balance
factor `+2`).  One op away from strict balance the shapes are pinned down,
the rotation restores strict balance, and the shift pass does not fire. -/
theorem bal_rotR {α : Type} (v : α) (l r : T α) (hh mm : Nat)
    (hsl : StrictBal l = true) (hsr : StrictBal r = true)
    (hal : Accurate l = true) (har : Accurate r = true)
    (hP : POK (tsize l + 1) (tsize r + 1))
    (hbf : clg (tsize l + 1) = clg (tsize r + 1) + 2) :
    ∃ t', Outcome (fun f => balance f (.node v l r hh mm)) t' ∧
      StrictBal t' = true ∧ Accurate t' = true ∧
      tsize t' = tsize l + tsize r + 1 ∧
      to_list t' = to_list l ++ v :: to_list r := by
  obtain ⟨hlgb, hbpow, hdisj⟩ := rot_prune (by omega) (by omega) hP hbf
  obtain ⟨hgl, hml⟩ := stored_logs hsl hal
  obtain ⟨hgr, hmr⟩ := stored_logs hsr har
  obtain ⟨hrrh, hrrm⟩ := sb_heights hsr
  have hp21 : (1 : Nat) ≤ 2 ^ clg (tsize r + 1) := Nat.one_le_two_pow
  have hpow1 : 2 ^ (clg (tsize r + 1) + 1) = 2 ^ clg (tsize r + 1) * 2 := by ring
  have hlpos : 2 ≤ tsize l := by
    rcases hdisj with h | h <;> omega
  have hgt : 1 < (get_height l : Int) - (get_height r : Int) := by
    rw [hgl, hgr]
    push_cast
    omega
  cases l with
  | nil => simp [tsize] at hlpos
  | node lv ll lr lh2 lm2 =>
    obtain ⟨hrlh, hrlm⟩ := sb_heights hsl
    have hsl' := hsl
    rw [StrictBal_node] at hsl'
    obtain ⟨hsll, hslr, hslroot⟩ := hsl'
    have hal' := hal
    rw [Accurate_node] at hal'
    obtain ⟨hall, halr, hlh2, hlm2⟩ := hal'
    obtain ⟨hpl, hpm⟩ := sb_heights hsll
    obtain ⟨hql, hqm⟩ := sb_heights hslr
    obtain ⟨hgll, hmll⟩ := stored_logs hsll hall
    obtain ⟨hglr, hmlr⟩ := stored_logs hslr halr
    have htl : tsize (T.node lv ll lr lh2 lm2) = 1 + tsize ll + tsize lr := rfl
    have hmaxl : 1 + max (rh ll) (rh lr) =
        clg (tsize (T.node lv ll lr lh2 lm2) + 1) := by
      rw [← hrlh]; rfl
    have hminl : 1 + min (rmh ll) (rmh lr) =
        lg (tsize (T.node lv ll lr lh2 lm2) + 1) := by
      rw [← hrlm]; rfl
    have hbal_l : get_balance (T.node lv ll lr lh2 lm2) =
        (clg (tsize ll + 1) : Int) - (clg (tsize lr + 1) : Int) := by
      show (get_height ll : Int) - (get_height lr : Int) = _
      rw [hgll, hglr]
    have hrb : rh r = clg (tsize r + 1) := hrrh
    have hrmb : rmh r = clg (tsize r + 1) := by rw [hrrm, hlgb]
    rcases hdisj with ha4 | ha4
    · -- the heavy side has 2 ^ (j + 1) nodes
      have hlgl : lg (tsize (T.node lv ll lr lh2 lm2) + 1) =
          clg (tsize r + 1) + 1 := by
        rw [ha4]; exact lg_pow_succ (by omega)
      rw [hpl, hql] at hmaxl
      rw [hpm, hqm] at hminl
      have hmax : max (clg (tsize ll + 1)) (clg (tsize lr + 1)) =
          clg (tsize r + 1) + 1 := by omega
      have hmin : min (lg (tsize ll + 1)) (lg (tsize lr + 1)) =
          clg (tsize r + 1) := by omega
      obtain hsplit := rigid_split (by omega) (by omega)
        (by omega : tsize ll + 1 + (tsize lr + 1) = 2 ^ (clg (tsize r + 1) + 1) + 1)
        (le_of_eq hmin.symm)
      rcases hsplit with ⟨hp, hq⟩ | ⟨hp, hq⟩
      · -- ll holds 2 ^ j - 1 nodes, lr holds 2 ^ j: double rotation
        have hrh_ll : rh ll = clg (tsize r + 1) := by rw [hpl, hp, clg_two_pow]
        have hrm_ll : rmh ll = clg (tsize r + 1) := by rw [hpm, hp, lg_two_pow]
        have hrh_lr : rh lr = clg (tsize r + 1) + 1 := by rw [hql, hq, clg_pow_succ]
        have hbneg : get_balance (T.node lv ll lr lh2 lm2) < 0 := by
          rw [hbal_l, hp, hq, clg_two_pow, clg_pow_succ]
          omega
        have hlrpos : 1 ≤ tsize lr := by omega
        cases lr with
        | nil => simp [tsize] at hlrpos
        | node lrv lrl lrr lrh2 lrm2 =>
          have hslr' := hslr
          rw [StrictBal_node] at hslr'
          obtain ⟨hslrl, hslrr, hslrroot⟩ := hslr'
          have halr' := halr
          rw [Accurate_node] at halr'
          obtain ⟨halrl, halrr, hlrh2, hlrm2⟩ := halr'
          have htlr : tsize (T.node lrv lrl lrr lrh2 lrm2) =
              1 + tsize lrl + tsize lrr := rfl
          have hmaxlr : 1 + max (rh lrl) (rh lrr) = clg (tsize r + 1) + 1 := by
            rw [show (1 + max (rh lrl) (rh lrr)) =
              rh (T.node lrv lrl lrr lrh2 lrm2) from rfl, hql, hq, clg_pow_succ]
          have hminlr : clg (tsize r + 1) - 1 ≤ min (rmh lrl) (rmh lrr) := by
            have hd : 1 + min (rmh lrl) (rmh lrr) =
                lg (tsize (T.node lrv lrl lrr lrh2 lrm2) + 1) := by
              rw [← hqm]; rfl
            rcases Nat.eq_zero_or_pos (clg (tsize r + 1)) with h0 | h0
            · omega
            · have : lg (tsize (T.node lrv lrl lrr lrh2 lrm2) + 1) =
                  clg (tsize r + 1) := by
                rw [hq]; exact lg_pow_succ h0
              omega
          set J := clg (tsize r + 1) with hJ
          have hA_acc : Accurate (upd lv ll lrl) = true := Accurate_upd hall halrl
          have hB_acc : Accurate (upd v lrr r) = true := Accurate_upd halrr har
          have hT_acc : Accurate (upd lrv (upd lv ll lrl) (upd v lrr r)) = true :=
            Accurate_upd hA_acc hB_acc
          have hrhA : rh (upd lv ll lrl) = J + 1 := by
            rw [rh_upd, hrh_ll]
            omega
          have hrmA : J ≤ rmh (upd lv ll lrl) := by
            rw [rmh_upd, hrm_ll]
            omega
          have hrhB : rh (upd v lrr r) = J + 1 := by
            rw [rh_upd, hrb]
            omega
          have hrmB : J ≤ rmh (upd v lrr r) := by
            rw [rmh_upd, hrmb]
            omega
          have hsA : StrictBal (upd lv ll lrl) = true := by
            rw [StrictBal_upd]
            refine ⟨hsll, hslrl, ?_⟩
            rw [hrh_ll, hrm_ll]
            omega
          have hsB : StrictBal (upd v lrr r) = true := by
            rw [StrictBal_upd]
            refine ⟨hslrr, hsr, ?_⟩
            rw [hrb, hrmb]
            omega
          have hsT : StrictBal (upd lrv (upd lv ll lrl) (upd v lrr r)) = true := by
            rw [StrictBal_upd]
            refine ⟨hsA, hsB, ?_⟩
            rw [hrhA, hrhB]
            omega
          have havl := avl_rotR_double v lv lrv ll lrl lrr r lrh2 lrm2 lh2 lm2 hh mm
            hgt hbneg
          have hstored : get_height (upd lrv (upd lv ll lrl) (upd v lrr r)) =
              J + 2 ∧ J + 1 ≤ get_min_height (upd lrv (upd lv ll lrl) (upd v lrr r)) := by
            obtain ⟨e1, e2⟩ := accurate_stored hT_acc
            constructor
            · rw [e1, rh_upd, hrhA, hrhB]
              omega
            · rw [e2, rmh_upd]
              omega
          have hcond : ¬ (1 < (get_height (upd lrv (upd lv ll lrl) (upd v lrr r)) : Int) -
              (get_min_height (upd lrv (upd lv ll lrl) (upd v lrr r)) : Int)) := by
            obtain ⟨e1, e2⟩ := hstored
            rw [e1]
            push_cast
            omega
          refine ⟨upd lrv (upd lv ll lrl) (upd v lrr r), ⟨1, ?_⟩, hsT, hT_acc, ?_, ?_⟩
          · intro f hf
            obtain ⟨g, rfl⟩ : ∃ g, f = g + 1 := ⟨f - 1, by omega⟩
            exact balance_succ_noshift havl hcond g
          · show 1 + (1 + tsize ll + tsize lrl) + (1 + tsize lrr + tsize r) = _
            omega
          · simp [to_list_upd, to_list_node]
      · -- ll holds 2 ^ j nodes, lr holds 2 ^ j - 1: single rotation
        have hrh_ll : rh ll = clg (tsize r + 1) + 1 := by rw [hpl, hp, clg_pow_succ]
        have hrm_ll : clg (tsize r + 1) ≤ rmh ll := by
          rw [hpm, hp]
          refine (le_lg_iff ?_).2 ?_ <;> omega
        have hrh_lr : rh lr = clg (tsize r + 1) := by rw [hql, hq, clg_two_pow]
        have hrm_lr : rmh lr = clg (tsize r + 1) := by rw [hqm, hq, lg_two_pow]
        have hbpos : ¬ (get_balance (T.node lv ll lr lh2 lm2) < 0) := by
          rw [hbal_l, hp, hq, clg_two_pow, clg_pow_succ]
          omega
        set J := clg (tsize r + 1) with hJ
        have hB_acc : Accurate (upd v lr r) = true := Accurate_upd halr har
        have hT_acc : Accurate (upd lv ll (upd v lr r)) = true :=
          Accurate_upd hall hB_acc
        have hrhB : rh (upd v lr r) = J + 1 := by
          rw [rh_upd, hrh_lr, hrb]
          omega
        have hrmB : rmh (upd v lr r) = J + 1 := by
          rw [rmh_upd, hrm_lr, hrmb]
          omega
        have hsB : StrictBal (upd v lr r) = true := by
          rw [StrictBal_upd]
          refine ⟨hslr, hsr, ?_⟩
          rw [hrh_lr, hrb, hrm_lr, hrmb]
          omega
        have hsT : StrictBal (upd lv ll (upd v lr r)) = true := by
          rw [StrictBal_upd]
          refine ⟨hsll, hsB, ?_⟩
          rw [hrh_ll, hrhB, hrmB]
          omega
        have havl := avl_rotR_single v lv ll lr r lh2 lm2 hh mm hgt hbpos
        have hcond : ¬ (1 < (get_height (upd lv ll (upd v lr r)) : Int) -
            (get_min_height (upd lv ll (upd v lr r)) : Int)) := by
          obtain ⟨e1, e2⟩ := accurate_stored hT_acc
          rw [e1, e2, rh_upd, rmh_upd, hrh_ll, hrhB, hrmB]
          push_cast
          omega
        refine ⟨upd lv ll (upd v lr r), ⟨1, ?_⟩, hsT, hT_acc, ?_, ?_⟩
        · intro f hf
          obtain ⟨g, rfl⟩ : ∃ g, f = g + 1 := ⟨f - 1, by omega⟩
          exact balance_succ_noshift havl hcond g
        · show 1 + tsize ll + (1 + tsize lr + tsize r) = _
          omega
        · simp [to_list_upd, to_list_node]
    · -- the corner case: 3 nodes on the left, empty right subtree
      obtain ⟨hj0, ha4'⟩ := ha4
      have hrnil : r = T.nil := by
        rw [hj0] at hbpow
        cases r with
        | nil => rfl
        | node rv rl rr rh2 rm2 =>
          exfalso
          have : tsize (T.node rv rl rr rh2 rm2) = 1 + tsize rl + tsize rr := rfl
          simp at hbpow
          omega
      subst hrnil
      have hc4 : clg 4 = 2 := by
        rw [show (4 : Nat) = 2 ^ 2 by norm_num, clg_two_pow]
      have hl4 : lg 4 = 2 := by
        rw [show (4 : Nat) = 2 ^ 2 by norm_num, lg_two_pow]
      rw [ha4', hc4] at hmaxl
      rw [ha4', hl4] at hminl
      rw [hpl, hql] at hmaxl
      rw [hpm, hqm] at hminl
      have hszll : tsize ll = 1 ∧ tsize lr = 1 := by
        have b1 : lg (tsize ll + 1) ≤ clg (tsize ll + 1) := lg_le_clg _
        have b2 : lg (tsize lr + 1) ≤ clg (tsize lr + 1) := lg_le_clg _
        have b3 : 2 ^ lg (tsize ll + 1) ≤ tsize ll + 1 := two_pow_lg_le (by omega)
        have b4 : 2 ^ lg (tsize lr + 1) ≤ tsize lr + 1 := two_pow_lg_le (by omega)
        have b5 : 1 ≤ min (lg (tsize ll + 1)) (lg (tsize lr + 1)) := by omega
        have b6 : 2 ^ 1 ≤ 2 ^ lg (tsize ll + 1) :=
          Nat.pow_le_pow_right (by omega) (by omega)
        have b7 : 2 ^ 1 ≤ 2 ^ lg (tsize lr + 1) :=
          Nat.pow_le_pow_right (by omega) (by omega)
        omega
      obtain ⟨hzll, hzlr⟩ := hszll
      have hc2 : clg 2 = 1 := by
        rw [show (2 : Nat) = 2 ^ 1 by norm_num, clg_two_pow]
      have hl2 : lg 2 = 1 := by
        rw [show (2 : Nat) = 2 ^ 1 by norm_num, lg_two_pow]
      have hrh_ll : rh ll = 1 := by rw [hpl, hzll]; exact hc2
      have hrm_ll : rmh ll = 1 := by rw [hpm, hzll]; exact hl2
      have hrh_lr : rh lr = 1 := by rw [hql, hzlr]; exact hc2
      have hrm_lr : rmh lr = 1 := by rw [hqm, hzlr]; exact hl2
      have hbpos : ¬ (get_balance (T.node lv ll lr lh2 lm2) < 0) := by
        rw [hbal_l, hzll, hzlr]
        omega
      have hB_acc : Accurate (upd v lr T.nil) = true := Accurate_upd halr rfl
      have hT_acc : Accurate (upd lv ll (upd v lr T.nil)) = true :=
        Accurate_upd hall hB_acc
      have hrhB : rh (upd v lr T.nil) = 2 := by
        rw [rh_upd, hrh_lr]; rfl
      have hrmB : rmh (upd v lr T.nil) = 1 := by
        rw [rmh_upd, hrm_lr]; rfl
      have hsB : StrictBal (upd v lr T.nil) = true := by
        rw [StrictBal_upd]
        refine ⟨hslr, rfl, ?_⟩
        rw [hrh_lr]
        simp [rh, rmh]
      have hsT : StrictBal (upd lv ll (upd v lr T.nil)) = true := by
        rw [StrictBal_upd]
        refine ⟨hsll, hsB, ?_⟩
        rw [hrh_ll, hrm_ll, hrhB, hrmB]
        omega
      have havl := avl_rotR_single v lv ll lr T.nil lh2 lm2 hh mm hgt hbpos
      have hcond : ¬ (1 < (get_height (upd lv ll (upd v lr T.nil)) : Int) -
          (get_min_height (upd lv ll (upd v lr T.nil)) : Int)) := by
        obtain ⟨e1, e2⟩ := accurate_stored hT_acc
        rw [e1, e2, rh_upd, rmh_upd, hrh_ll, hrm_ll, hrhB, hrmB]
        push_cast
        omega
      refine ⟨upd lv ll (upd v lr T.nil), ⟨1, ?_⟩, hsT, hT_acc, ?_, ?_⟩
      · intro f hf
        obtain ⟨g, rfl⟩ : ∃ g, f = g + 1 := ⟨f - 1, by omega⟩
        exact balance_succ_noshift havl hcond g
      · show 1 + tsize ll + (1 + tsize lr + tsize (T.nil : T α)) = _
        simp [tsize]
        omega
      · simp [to_list_upd, to_list_node]

/-- The right-heavy rotation case of `MyTree._balance` (stored balance
factor `-2`), mirror image of `bal_rotR`. -/
theorem bal_rotL {α : Type} (v : α) (l r : T α) (hh mm : Nat)
    (hsl : StrictBal l = true) (hsr : StrictBal r = true)
    (hal : Accurate l = true) (har : Accurate r = true)
    (hP : POK (tsize l + 1) (tsize r + 1))
    (hbf : clg (tsize r + 1) = clg (tsize l + 1) + 2) :
    ∃ t', Outcome (fun f => balance f (.node v l r hh mm)) t' ∧
      StrictBal t' = true ∧ Accurate t' = true ∧
      tsize t' = tsize l + tsize r + 1 ∧
      to_list t' = to_list l ++ v :: to_list r := by
  obtain ⟨hlgb, hbpow, hdisj⟩ := rot_prune (by omega) (by omega) (POK_symm hP) hbf
  obtain ⟨hgl, hml⟩ := stored_logs hsl hal
  obtain ⟨hgr, hmr⟩ := stored_logs hsr har
  obtain ⟨hrlh, hrlm⟩ := sb_heights hsl
  have hp21 : (1 : Nat) ≤ 2 ^ clg (tsize l + 1) := Nat.one_le_two_pow
  have hpow1 : 2 ^ (clg (tsize l + 1) + 1) = 2 ^ clg (tsize l + 1) * 2 := by ring
  have hrpos : 2 ≤ tsize r := by
    rcases hdisj with h | h <;> omega
  have hgt : ¬ (1 < (get_height l : Int) - (get_height r : Int)) := by
    rw [hgl, hgr]
    push_cast
    omega
  have hlt : (get_height l : Int) - (get_height r : Int) < -1 := by
    rw [hgl, hgr]
    push_cast
    omega
  cases r with
  | nil => simp [tsize] at hrpos
  | node rv rl rr rh2 rm2 =>
    obtain ⟨hrrh, hrrm⟩ := sb_heights hsr
    have hsr' := hsr
    rw [StrictBal_node] at hsr'
    obtain ⟨hsrl, hsrr, hsrroot⟩ := hsr'
    have har' := har
    rw [Accurate_node] at har'
    obtain ⟨harl, harr, hrh2, hrm2⟩ := har'
    obtain ⟨hpl, hpm⟩ := sb_heights hsrl
    obtain ⟨hql, hqm⟩ := sb_heights hsrr
    obtain ⟨hgrl, hmrl⟩ := stored_logs hsrl harl
    obtain ⟨hgrr, hmrr⟩ := stored_logs hsrr harr
    have htr : tsize (T.node rv rl rr rh2 rm2) = 1 + tsize rl + tsize rr := rfl
    have hmaxr : 1 + max (rh rl) (rh rr) =
        clg (tsize (T.node rv rl rr rh2 rm2) + 1) := by
      rw [← hrrh]; rfl
    have hminr : 1 + min (rmh rl) (rmh rr) =
        lg (tsize (T.node rv rl rr rh2 rm2) + 1) := by
      rw [← hrrm]; rfl
    have hbal_r : get_balance (T.node rv rl rr rh2 rm2) =
        (clg (tsize rl + 1) : Int) - (clg (tsize rr + 1) : Int) := by
      show (get_height rl : Int) - (get_height rr : Int) = _
      rw [hgrl, hgrr]
    have hla : rh l = clg (tsize l + 1) := hrlh
    have hlma : rmh l = clg (tsize l + 1) := by rw [hrlm, hlgb]
    rcases hdisj with ha4 | ha4
    · -- the heavy side has 2 ^ (j + 1) nodes
      have hlgr2 : lg (tsize (T.node rv rl rr rh2 rm2) + 1) =
          clg (tsize l + 1) + 1 := by
        rw [ha4]; exact lg_pow_succ (by omega)
      rw [hpl, hql] at hmaxr
      rw [hpm, hqm] at hminr
      have hmax : max (clg (tsize rl + 1)) (clg (tsize rr + 1)) =
          clg (tsize l + 1) + 1 := by omega
      have hmin : min (lg (tsize rl + 1)) (lg (tsize rr + 1)) =
          clg (tsize l + 1) := by omega
      obtain hsplit := rigid_split (by omega) (by omega)
        (by omega : tsize rl + 1 + (tsize rr + 1) = 2 ^ (clg (tsize l + 1) + 1) + 1)
        (le_of_eq hmin.symm)
      rcases hsplit with ⟨hp, hq⟩ | ⟨hp, hq⟩
      · -- rl holds 2 ^ j - 1 nodes, rr holds 2 ^ j: single left rotation
        have hrh_rl : rh rl = clg (tsize l + 1) := by rw [hpl, hp, clg_two_pow]
        have hrm_rl : rmh rl = clg (tsize l + 1) := by rw [hpm, hp, lg_two_pow]
        have hrh_rr : rh rr = clg (tsize l + 1) + 1 := by rw [hql, hq, clg_pow_succ]
        have hrm_rr : clg (tsize l + 1) ≤ rmh rr := by
          rw [hqm, hq]
          refine (le_lg_iff ?_).2 ?_ <;> omega
        have hbneg : ¬ (0 < get_balance (T.node rv rl rr rh2 rm2)) := by
          rw [hbal_r, hp, hq, clg_two_pow, clg_pow_succ]
          omega
        set J := clg (tsize l + 1) with hJ
        have hA_acc : Accurate (upd v l rl) = true := Accurate_upd hal harl
        have hT_acc : Accurate (upd rv (upd v l rl) rr) = true :=
          Accurate_upd hA_acc harr
        have hrhA : rh (upd v l rl) = J + 1 := by
          rw [rh_upd, hla, hrh_rl]
          omega
        have hrmA : rmh (upd v l rl) = J + 1 := by
          rw [rmh_upd, hlma, hrm_rl]
          omega
        have hsA : StrictBal (upd v l rl) = true := by
          rw [StrictBal_upd]
          refine ⟨hsl, hsrl, ?_⟩
          rw [hla, hlma, hrh_rl, hrm_rl]
          omega
        have hsT : StrictBal (upd rv (upd v l rl) rr) = true := by
          rw [StrictBal_upd]
          refine ⟨hsA, hsrr, ?_⟩
          rw [hrhA, hrmA, hrh_rr]
          omega
        have havl := avl_rotL_single v rv l rl rr rh2 rm2 hh mm hgt hlt hbneg
        have hcond : ¬ (1 < (get_height (upd rv (upd v l rl) rr) : Int) -
            (get_min_height (upd rv (upd v l rl) rr) : Int)) := by
          obtain ⟨e1, e2⟩ := accurate_stored hT_acc
          rw [e1, e2, rh_upd, rmh_upd, hrhA, hrmA, hrh_rr]
          push_cast
          omega
        refine ⟨upd rv (upd v l rl) rr, ⟨1, ?_⟩, hsT, hT_acc, ?_, ?_⟩
        · intro f hf
          obtain ⟨g, rfl⟩ : ∃ g, f = g + 1 := ⟨f - 1, by omega⟩
          exact balance_succ_noshift havl hcond g
        · show 1 + (1 + tsize l + tsize rl) + tsize rr = _
          omega
        · simp [to_list_upd, to_list_node]
      · -- rl holds 2 ^ j nodes, rr holds 2 ^ j - 1: right-left double rotation
        have hrh_rl : rh rl = clg (tsize l + 1) + 1 := by rw [hpl, hp, clg_pow_succ]
        have hrh_rr : rh rr = clg (tsize l + 1) := by rw [hql, hq, clg_two_pow]
        have hrm_rr : rmh rr = clg (tsize l + 1) := by rw [hqm, hq, lg_two_pow]
        have hbpos : 0 < get_balance (T.node rv rl rr rh2 rm2) := by
          rw [hbal_r, hp, hq, clg_two_pow, clg_pow_succ]
          omega
        have hrlpos : 1 ≤ tsize rl := by omega
        cases rl with
        | nil => simp [tsize] at hrlpos
        | node rlv rll rlr rlh2 rlm2 =>
          have hsrl' := hsrl
          rw [StrictBal_node] at hsrl'
          obtain ⟨hsrll, hsrlr, hsrlroot⟩ := hsrl'
          have harl' := harl
          rw [Accurate_node] at harl'
          obtain ⟨harll, harlr, hrlh2, hrlm2⟩ := harl'
          have htrl : tsize (T.node rlv rll rlr rlh2 rlm2) =
              1 + tsize rll + tsize rlr := rfl
          have hmaxrl : 1 + max (rh rll) (rh rlr) = clg (tsize l + 1) + 1 := by
            rw [show (1 + max (rh rll) (rh rlr)) =
              rh (T.node rlv rll rlr rlh2 rlm2) from rfl, hpl, hp, clg_pow_succ]
          have hminrl : clg (tsize l + 1) - 1 ≤ min (rmh rll) (rmh rlr) := by
            have hd : 1 + min (rmh rll) (rmh rlr) =
                lg (tsize (T.node rlv rll rlr rlh2 rlm2) + 1) := by
              rw [← hpm]; rfl
            rcases Nat.eq_zero_or_pos (clg (tsize l + 1)) with h0 | h0
            · omega
            · have : lg (tsize (T.node rlv rll rlr rlh2 rlm2) + 1) =
                  clg (tsize l + 1) := by
                rw [hp]; exact lg_pow_succ h0
              omega
          set J := clg (tsize l + 1) with hJ
          have hA_acc : Accurate (upd v l rll) = true := Accurate_upd hal harll
          have hB_acc : Accurate (upd rv rlr rr) = true := Accurate_upd harlr harr
          have hT_acc : Accurate (upd rlv (upd v l rll) (upd rv rlr rr)) = true :=
            Accurate_upd hA_acc hB_acc
          have hrhA : rh (upd v l rll) = J + 1 := by
            rw [rh_upd, hla]
            omega
          have hrmA : J ≤ rmh (upd v l rll) := by
            rw [rmh_upd, hlma]
            omega
          have hrhB : rh (upd rv rlr rr) = J + 1 := by
            rw [rh_upd, hrh_rr]
            omega
          have hrmB : J ≤ rmh (upd rv rlr rr) := by
            rw [rmh_upd, hrm_rr]
            omega
          have hsA : StrictBal (upd v l rll) = true := by
            rw [StrictBal_upd]
            refine ⟨hsl, hsrll, ?_⟩
            rw [hla, hlma]
            omega
          have hsB : StrictBal (upd rv rlr rr) = true := by
            rw [StrictBal_upd]
            refine ⟨hsrlr, hsrr, ?_⟩
            rw [hrh_rr, hrm_rr]
            omega
          have hsT : StrictBal (upd rlv (upd v l rll) (upd rv rlr rr)) = true := by
            rw [StrictBal_upd]
            refine ⟨hsA, hsB, ?_⟩
            rw [hrhA, hrhB]
            omega
          have havl := avl_rotL_double v rv rlv l rll rlr rr rlh2 rlm2 rh2 rm2 hh mm
            hgt hlt hbpos
          have hcond : ¬ (1 < (get_height (upd rlv (upd v l rll) (upd rv rlr rr)) : Int) -
              (get_min_height (upd rlv (upd v l rll) (upd rv rlr rr)) : Int)) := by
            obtain ⟨e1, e2⟩ := accurate_stored hT_acc
            rw [e1, e2, rh_upd, rmh_upd, hrhA, hrhB]
            push_cast
            omega
          refine ⟨upd rlv (upd v l rll) (upd rv rlr rr), ⟨1, ?_⟩, hsT, hT_acc, ?_, ?_⟩
          · intro f hf
            obtain ⟨g, rfl⟩ : ∃ g, f = g + 1 := ⟨f - 1, by omega⟩
            exact balance_succ_noshift havl hcond g
          · show 1 + (1 + tsize l + tsize rll) + (1 + tsize rlr + tsize rr) = _
            omega
          · simp [to_list_upd, to_list_node]
    · -- the corner case: 3 nodes on the right, empty left subtree
      obtain ⟨hj0, ha4'⟩ := ha4
      have hlnil : l = T.nil := by
        rw [hj0] at hbpow
        cases l with
        | nil => rfl
        | node xv xl xr xh2 xm2 =>
          exfalso
          have : tsize (T.node xv xl xr xh2 xm2) = 1 + tsize xl + tsize xr := rfl
          simp at hbpow
          omega
      subst hlnil
      have hc4 : clg 4 = 2 := by
        rw [show (4 : Nat) = 2 ^ 2 by norm_num, clg_two_pow]
      have hl4 : lg 4 = 2 := by
        rw [show (4 : Nat) = 2 ^ 2 by norm_num, lg_two_pow]
      rw [ha4', hc4] at hmaxr
      rw [ha4', hl4] at hminr
      rw [hpl, hql] at hmaxr
      rw [hpm, hqm] at hminr
      have hszrl : tsize rl = 1 ∧ tsize rr = 1 := by
        have b1 : lg (tsize rl + 1) ≤ clg (tsize rl + 1) := lg_le_clg _
        have b2 : lg (tsize rr + 1) ≤ clg (tsize rr + 1) := lg_le_clg _
        have b3 : 2 ^ lg (tsize rl + 1) ≤ tsize rl + 1 := two_pow_lg_le (by omega)
        have b4 : 2 ^ lg (tsize rr + 1) ≤ tsize rr + 1 := two_pow_lg_le (by omega)
        have b5 : 1 ≤ min (lg (tsize rl + 1)) (lg (tsize rr + 1)) := by omega
        have b6 : 2 ^ 1 ≤ 2 ^ lg (tsize rl + 1) :=
          Nat.pow_le_pow_right (by omega) (by omega)
        have b7 : 2 ^ 1 ≤ 2 ^ lg (tsize rr + 1) :=
          Nat.pow_le_pow_right (by omega) (by omega)
        omega
      obtain ⟨hzrl, hzrr⟩ := hszrl
      have hc2 : clg 2 = 1 := by
        rw [show (2 : Nat) = 2 ^ 1 by norm_num, clg_two_pow]
      have hl2 : lg 2 = 1 := by
        rw [show (2 : Nat) = 2 ^ 1 by norm_num, lg_two_pow]
      have hrh_rl : rh rl = 1 := by rw [hpl, hzrl]; exact hc2
      have hrm_rl : rmh rl = 1 := by rw [hpm, hzrl]; exact hl2
      have hrh_rr : rh rr = 1 := by rw [hql, hzrr]; exact hc2
      have hrm_rr : rmh rr = 1 := by rw [hqm, hzrr]; exact hl2
      have hbneg : ¬ (0 < get_balance (T.node rv rl rr rh2 rm2)) := by
        rw [hbal_r, hzrl, hzrr]
        omega
      have hA_acc : Accurate (upd v T.nil rl) = true := Accurate_upd rfl harl
      have hT_acc : Accurate (upd rv (upd v T.nil rl) rr) = true :=
        Accurate_upd hA_acc harr
      have hrhA : rh (upd v T.nil rl) = 2 := by
        rw [rh_upd, hrh_rl]; rfl
      have hrmA : rmh (upd v T.nil rl) = 1 := by
        rw [rmh_upd, hrm_rl]; rfl
      have hsA : StrictBal (upd v T.nil rl) = true := by
        rw [StrictBal_upd]
        refine ⟨rfl, hsrl, ?_⟩
        rw [hrh_rl]
        simp [rh, rmh]
      have hsT : StrictBal (upd rv (upd v T.nil rl) rr) = true := by
        rw [StrictBal_upd]
        refine ⟨hsA, hsrr, ?_⟩
        rw [hrhA, hrmA, hrh_rr, hrm_rr]
        omega
      have havl := avl_rotL_single v rv T.nil rl rr rh2 rm2 hh mm hgt hlt hbneg
      have hcond : ¬ (1 < (get_height (upd rv (upd v T.nil rl) rr) : Int) -
          (get_min_height (upd rv (upd v T.nil rl) rr) : Int)) := by
        obtain ⟨e1, e2⟩ := accurate_stored hT_acc
        rw [e1, e2, rh_upd, rmh_upd, hrhA, hrmA, hrh_rr, hrm_rr]
        push_cast
        omega
      refine ⟨upd rv (upd v T.nil rl) rr, ⟨1, ?_⟩, hsT, hT_acc, ?_, ?_⟩
      · intro f hf
        obtain ⟨g, rfl⟩ : ∃ g, f = g + 1 := ⟨f - 1, by omega⟩
        exact balance_succ_noshift havl hcond g
      · show 1 + (1 + tsize (T.nil : T α) + tsize rl) + tsize rr = _
        simp [tsize]
        omega
      · simp [to_list_upd, to_list_node]

theorem balSpec_step {α : Type} {k : Nat}
    (IH : ∀ j, j < k → BalSpec α j ∧ InsMinSpec α j ∧ InsMaxSpec α j ∧
      DelMaxSpec α j ∧ DelMinSpec α j) : BalSpec α k := by
  intro v l r hh mm hk hsl hsr hal har hP
  obtain ⟨hbb1, hbb2⟩ := pok_bf_bound (by omega) (by omega) hP
  rcases Nat.lt_or_ge (clg (tsize l + 1)) (clg (tsize r + 1) + 2) with hc1 | hc1
  · rcases Nat.lt_or_ge (clg (tsize r + 1)) (clg (tsize l + 1) + 2) with hc2 | hc2
    · -- balance factor within one: possibly a shift
      exact bal_norot v l r hh mm hsl hsr hal har hP (by omega) (by omega)
        ((IH (2 * tsize l + 1) (by omega)).2.2.2.1)
        (fun hl1 => (IH (2 * tsize r + 3) (by omega)).2.1)
        ((IH (2 * tsize r + 1) (by omega)).2.2.2.2)
        (fun hr1 => (IH (2 * tsize l + 3) (by omega)).2.2.1)
    · -- right heavy rotation
      exact bal_rotL v l r hh mm hsl hsr hal har hP (by omega)
  · -- left heavy rotation
    exact bal_rotR v l r hh mm hsl hsr hal har hP (by omega)

/-- The full simultaneous specification of the rebalancing family. -/
theorem tree_specs (α : Type) : ∀ k, BalSpec α k ∧ InsMinSpec α k ∧
    InsMaxSpec α k ∧ DelMaxSpec α k ∧ DelMinSpec α k := by
  intro k
  induction k using Nat.strong_induction_on with
  | _ k IH =>
    exact ⟨balSpec_step IH, insMin_step IH, insMax_step IH, delMax_step IH,
      delMin_step IH⟩

/-! ### Ordered insertion into the in-order traversal -/

/-- Insertion of `v` into a list before the first element greater than `v`:
the effect of the BST descent (equal keys go right) on the in-order list. -/
def insOrd [LinearOrder α] (v : α) : List α → List α
  | [] => [v]
  | x :: xs => if v < x then v :: x :: xs else x :: insOrd v xs

theorem insOrd_append_lt [LinearOrder α] {v nv : α} (L R : List α) (hv : v < nv) :
    insOrd v (L ++ nv :: R) = insOrd v L ++ nv :: R := by
  induction L with
  | nil => simp [insOrd, hv]
  | cons x xs ih =>
    by_cases hx : v < x
    · simp [insOrd, hx]
    · simp [insOrd, hx, ih]

theorem insOrd_append_ge [LinearOrder α] {v nv : α} (L R : List α)
    (hL : ∀ x ∈ L, ¬ v < x) (hnv : ¬ v < nv) :
    insOrd v (L ++ nv :: R) = L ++ nv :: insOrd v R := by
  induction L with
  | nil => simp [insOrd, hnv]
  | cons x xs ih =>
    have hx : ¬ v < x := hL x (by simp)
    have he : insOrd v (x :: (xs ++ nv :: R)) = x :: insOrd v (xs ++ nv :: R) := by
      simp [insOrd, hx]
    show insOrd v (x :: (xs ++ nv :: R)) = x :: (xs ++ nv :: insOrd v R)
    rw [he, ih (fun y hy => hL y (by simp [hy]))]

theorem insOrd_perm [LinearOrder α] (v : α) (L : List α) :
    List.Perm (insOrd v L) (v :: L) := by
  induction L with
  | nil => simp [insOrd]
  | cons x xs ih =>
    by_cases hx : v < x
    · simp [insOrd, hx]
    · simp only [insOrd, if_neg hx]
      exact (ih.cons x).trans (List.Perm.swap v x xs)

theorem insOrd_sorted [LinearOrder α] {v : α} {L : List α}
    (hL : List.Sorted (· ≤ ·) L) : List.Sorted (· ≤ ·) (insOrd v L) := by
  induction L with
  | nil => simp [insOrd]
  | cons x xs ih =>
    rw [List.sorted_cons] at hL
    by_cases hx : v < x
    · have he : insOrd v (x :: xs) = v :: x :: xs := by simp [insOrd, hx]
      rw [he, List.sorted_cons]
      refine ⟨?_, by rw [List.sorted_cons]; exact hL⟩
      intro b hb
      rcases List.mem_cons.1 hb with hb2 | hb2
      · rw [hb2]; exact le_of_lt hx
      · exact le_trans (le_of_lt hx) (hL.1 b hb2)
    · have he : insOrd v (x :: xs) = x :: insOrd v xs := by simp [insOrd, hx]
      rw [he, List.sorted_cons]
      refine ⟨?_, ih hL.2⟩
      intro b hb
      have hmem := (insOrd_perm v xs).mem_iff.1 hb
      rcases List.mem_cons.1 hmem with hb2 | hb2
      · rw [hb2]; exact le_of_not_lt hx
      · exact hL.1 b hb2

/-! ### Insertion and deletion specifications -/

theorem minsert_spec [LinearOrder α] (t : T α) (v : α)
    (hs : StrictBal t = true) (ha : Accurate t = true) :
    ∃ t', Outcome (fun f => minsert f t v) t' ∧
      StrictBal t' = true ∧ Accurate t' = true ∧
      tsize t' = tsize t + 1 ∧
      (List.Sorted (· ≤ ·) (to_list t) → to_list t' = insOrd v (to_list t)) := by
  induction t with
  | nil =>
    refine ⟨.node v .nil .nil 1 1, ⟨0, fun f _ => rfl⟩, rfl, rfl, rfl, fun _ => rfl⟩
  | node nv l r hh mm ihl ihr =>
    have hs0 := hs
    rw [StrictBal_node] at hs
    rw [Accurate_node] at ha
    have hszt : tsize (T.node nv l r hh mm) = 1 + tsize l + tsize r := rfl
    have hrc : RC (tsize l + 1) (tsize r + 1) := sb_root_rc hs0
    by_cases hv : v < nv
    · obtain ⟨l', ⟨f1, h1⟩, hsl', hal', hzl', htl'⟩ := ihl hs.1 ha.1
      obtain ⟨t', ⟨f2, h2⟩, hst', hat', hzt', htt'⟩ :=
        (tree_specs α (2 * (tsize l' + tsize r + 1))).1 nv l' r hh mm
          (by omega) hsl' hs.2.1 hal' ha.2.1
          (by
            right; right; left
            have he : tsize l' + 1 - 1 = tsize l + 1 := by omega
            rw [he]
            exact hrc)
      refine ⟨t', ⟨max f1 f2, ?_⟩, hst', hat', by omega, ?_⟩
      · intro f hf
        have hg1 : minsert f l v = some l' := h1 f (by omega)
        have hg2 : balance f (T.node nv l' r hh mm) = some t' := h2 f (by omega)
        show (if v < nv then
            (minsert f l v).bind fun l' => balance f (T.node nv l' r hh mm)
          else
            (minsert f r v).bind fun r' => balance f (T.node nv l r' hh mm)) = some t'
        rw [if_pos hv, hg1]
        exact hg2
      · intro hsort
        rw [to_list_node] at hsort ⊢
        have hsp := List.pairwise_append.1 hsort
        rw [htt', htl' hsp.1, insOrd_append_lt _ _ hv]
    · obtain ⟨r', ⟨f1, h1⟩, hsr', har', hzr', htr'⟩ := ihr hs.2.1 ha.2.1
      obtain ⟨t', ⟨f2, h2⟩, hst', hat', hzt', htt'⟩ :=
        (tree_specs α (2 * (tsize l + tsize r' + 1))).1 nv l r' hh mm
          (by omega) hs.1 hsr' ha.1 har'
          (by
            right; right; right; right
            have he : tsize r' + 1 - 1 = tsize r + 1 := by omega
            rw [he]
            exact hrc)
      refine ⟨t', ⟨max f1 f2, ?_⟩, hst', hat', by omega, ?_⟩
      · intro f hf
        have hg1 : minsert f r v = some r' := h1 f (by omega)
        have hg2 : balance f (T.node nv l r' hh mm) = some t' := h2 f (by omega)
        show (if v < nv then
            (minsert f l v).bind fun l' => balance f (T.node nv l' r hh mm)
          else
            (minsert f r v).bind fun r' => balance f (T.node nv l r' hh mm)) = some t'
        rw [if_neg hv, hg1]
        exact hg2
      · intro hsort
        rw [to_list_node] at hsort ⊢
        have hsp := List.pairwise_append.1 hsort
        rw [htt', htr' (List.sorted_cons.1 hsp.2.1).2, insOrd_append_ge]
        · intro x hx
          have hxle : x ≤ nv := hsp.2.2 x hx nv (by simp)
          intro hlt
          exact hv (lt_of_lt_of_le hlt hxle)
        · exact hv

theorem mdelete_spec [LinearOrder α] (t : T α) (v : α)
    (hs : StrictBal t = true) (ha : Accurate t = true) :
    ∃ t', Outcome (fun f => mdelete f t v) t' ∧
      StrictBal t' = true ∧ Accurate t' = true ∧
      (tsize t' = tsize t ∨ tsize t' + 1 = tsize t) := by
  induction t generalizing v with
  | nil => exact ⟨.nil, ⟨0, fun f _ => rfl⟩, rfl, rfl, Or.inl rfl⟩
  | node nv l r hh mm ihl ihr =>
    have hs0 := hs
    rw [StrictBal_node] at hs
    rw [Accurate_node] at ha
    have hszt : tsize (T.node nv l r hh mm) = 1 + tsize l + tsize r := rfl
    have hrc : RC (tsize l + 1) (tsize r + 1) := sb_root_rc hs0
    by_cases hv : v < nv
    · obtain ⟨l', ⟨f1, h1⟩, hsl', hal', hzl'⟩ := ihl v hs.1 ha.1
      obtain ⟨t', ⟨f2, h2⟩, hst', hat', hzt', _⟩ :=
        (tree_specs α (2 * (tsize l' + tsize r + 1))).1 nv l' r hh mm
          (by omega) hsl' hs.2.1 hal' ha.2.1
          (by
            rcases hzl' with he | he
            · left
              rw [show tsize l' + 1 = tsize l + 1 by omega]
              exact hrc
            · right; left
              rw [show tsize l' + 1 + 1 = tsize l + 1 by omega]
              exact hrc)
      refine ⟨t', ⟨max f1 f2, ?_⟩, hst', hat', by omega⟩
      intro f hf
      have hg1 : mdelete f l v = some l' := h1 f (by omega)
      have hg2 : balance f (T.node nv l' r hh mm) = some t' := h2 f (by omega)
      show mdelete f (T.node nv l r hh mm) v = some t'
      simp only [mdelete, if_pos hv]
      rw [hg1]
      exact hg2
    · by_cases hv2 : nv < v
      · obtain ⟨r', ⟨f1, h1⟩, hsr', har', hzr'⟩ := ihr v hs.2.1 ha.2.1
        obtain ⟨t', ⟨f2, h2⟩, hst', hat', hzt', _⟩ :=
          (tree_specs α (2 * (tsize l + tsize r' + 1))).1 nv l r' hh mm
            (by omega) hs.1 hsr' ha.1 har'
            (by
              rcases hzr' with he | he
              · left
                rw [show tsize r' + 1 = tsize r + 1 by omega]
                exact hrc
              · right; right; right; left
                rw [show tsize r' + 1 + 1 = tsize r + 1 by omega]
                exact hrc)
        refine ⟨t', ⟨max f1 f2, ?_⟩, hst', hat', by omega⟩
        intro f hf
        have hg1 : mdelete f r v = some r' := h1 f (by omega)
        have hg2 : balance f (T.node nv l r' hh mm) = some t' := h2 f (by omega)
        show mdelete f (T.node nv l r hh mm) v = some t'
        simp only [mdelete, if_pos hv2, if_neg hv]
        rw [hg1]
        exact hg2
      · cases l with
        | nil =>
          refine ⟨r, ⟨0, ?_⟩, hs.2.1, ha.2.1, ?_⟩
          · intro f hf
            show mdelete f (T.node nv T.nil r hh mm) v = some r
            simp [mdelete, if_neg hv, if_neg hv2]
          · right
            show tsize r + 1 = tsize (T.node nv T.nil r hh mm)
            simp only [tsize]
            omega
        | node lv ll lr lh2 lm2 =>
          cases r with
          | nil =>
            refine ⟨T.node lv ll lr lh2 lm2, ⟨0, ?_⟩, hs.1, ha.1, ?_⟩
            · intro f hf
              show mdelete f (T.node nv (T.node lv ll lr lh2 lm2) T.nil hh mm) v
                = some (T.node lv ll lr lh2 lm2)
              simp [mdelete, if_neg hv, if_neg hv2]
            · right
              show tsize (T.node lv ll lr lh2 lm2) + 1
                = tsize (T.node nv (T.node lv ll lr lh2 lm2) T.nil hh mm)
              simp only [tsize]
              omega
          | node rv rl rr rh2 rm2 =>
            have hrne : to_list (T.node rv rl rr rh2 rm2) ≠ [] := by
              rw [Ne, to_list_eq_nil_iff]
              simp
            obtain ⟨m, hm⟩ : ∃ m, get_min_node (T.node rv rl rr rh2 rm2) = some m := by
              rw [get_min_node_spec]
              cases hc : (to_list (T.node rv rl rr rh2 rm2)).head? with
              | none => exact absurd (List.head?_eq_none_iff.1 hc) hrne
              | some x => exact ⟨x, rfl⟩
            obtain ⟨r', ⟨f1, h1⟩, hsr', har', hzr'⟩ := ihr m hs.2.1 ha.2.1
            obtain ⟨t', ⟨f2, h2⟩, hst', hat', hzt', _⟩ :=
              (tree_specs α (2 * (tsize (T.node lv ll lr lh2 lm2) + tsize r' + 1))).1
                m (T.node lv ll lr lh2 lm2) r' hh mm
                (by omega) hs.1 hsr' ha.1 har'
                (by
                  rcases hzr' with he | he
                  · left
                    rw [show tsize r' + 1 = tsize (T.node rv rl rr rh2 rm2) + 1 by omega]
                    exact hrc
                  · right; right; right; left
                    rw [show tsize r' + 1 + 1 = tsize (T.node rv rl rr rh2 rm2) + 1 by omega]
                    exact hrc)
            refine ⟨t', ⟨max f1 f2, ?_⟩, hst', hat', by omega⟩
            intro f hf
            have hg1 : mdelete f (T.node rv rl rr rh2 rm2) m = some r' := h1 f (by omega)
            have hg2 : balance f (T.node m (T.node lv ll lr lh2 lm2) r' hh mm) = some t' :=
              h2 f (by omega)
            show mdelete f (T.node nv (T.node lv ll lr lh2 lm2)
              (T.node rv rl rr rh2 rm2) hh mm) v = some t'
            rw [mdelete, if_neg hv, if_neg hv2]
            show ((get_min_node (T.node rv rl rr rh2 rm2)).bind fun m2 =>
                (mdelete f (T.node rv rl rr rh2 rm2) m2).bind fun r2 =>
                  balance f (T.node m2 (T.node lv ll lr lh2 lm2) r2 hh mm)) = some t'
            rw [hm]
            simp only [Option.some_bind]
            rw [hg1]
            simp only [Option.some_bind]
            exact hg2

/-! ### Reachable tree states and the balance invariants -/

theorem Outcome_unique {m : Nat → Option (T α)} {a b : T α}
    (ha : Outcome m a) (hb : Outcome m b) : a = b := by
  obtain ⟨f1, h1⟩ := ha
  obtain ⟨f2, h2⟩ := hb
  have e1 := h1 (max f1 f2) (le_max_left f1 f2)
  have e2 := h2 (max f1 f2) (le_max_right f1 f2)
  rw [e1] at e2
  exact Option.some.inj e2

/-- Tree states reachable from the empty tree by completed top-level
`MyTree` insert and delete calls (with the order-consistent oracle). -/
inductive Reachable [LinearOrder α] : T α → Prop where
  | empty : Reachable T.nil
  | ins (t t' : T α) (v : α) : Reachable t →
      Outcome (fun f => minsert f t v) t' → Reachable t'
  | del (t t' : T α) (v : α) : Reachable t →
      Outcome (fun f => mdelete f t v) t' → Reachable t'

theorem reachable_inv [LinearOrder α] {t : T α} (h : Reachable t) :
    StrictBal t = true ∧ Accurate t = true := by
  induction h with
  | empty => exact ⟨rfl, rfl⟩
  | ins t t' v ht ho ih =>
    obtain ⟨t2, ho2, hs2, ha2, _, _⟩ := minsert_spec t v ih.1 ih.2
    rw [Outcome_unique ho ho2]
    exact ⟨hs2, ha2⟩
  | del t t' v ht ho ih =>
    obtain ⟨t2, ho2, hs2, ha2, _⟩ := mdelete_spec t v ih.1 ih.2
    rw [Outcome_unique ho ho2]
    exact ⟨hs2, ha2⟩

/-- C3: every tree state reachable by any sequence of insert and delete
operations satisfies, at every node, the strict-balance invariant
`height − minHeight ≤ 1` (`StrictBal` states it on the real heights, and
`Accurate` says the stored `height` / `min_height` attributes that
`MyTree._update_height` maintains agree with the real ones, so the stored
difference read by `MyTree._balance` is also at most one at every node). -/
theorem C3_strict_balance_invariant [LinearOrder α] {t : T α}
    (h : Reachable t) : StrictBal t = true ∧ Accurate t = true :=
  reachable_inv h

theorem C3_strict_balance_invariant_witness :
    StrictBal (T.node 2 (T.node 1 T.nil T.nil 1 1) (T.node 3 T.nil T.nil 1 1)
        2 2 : T ℕ) = true ∧
    Accurate (T.node 2 (T.node 1 T.nil T.nil 1 1) (T.node 3 T.nil T.nil 1 1)
        2 2 : T ℕ) = true := by
  have h1 : Reachable (T.node 2 T.nil T.nil 1 1 : T ℕ) :=
    Reachable.ins T.nil _ 2 Reachable.empty ⟨0, fun _ _ => rfl⟩
  have h2 : Reachable (T.node 2 (T.node 1 T.nil T.nil 1 1) T.nil 2 1 : T ℕ) :=
    Reachable.ins _ _ 1 h1 ⟨1, fun f hf => minsert_mono hf (by decide)⟩
  have h3 : Reachable (T.node 2 (T.node 1 T.nil T.nil 1 1)
      (T.node 3 T.nil T.nil 1 1) 2 2 : T ℕ) :=
    Reachable.ins _ _ 3 h2 ⟨1, fun f hf => minsert_mono hf (by decide)⟩
  exact C3_strict_balance_invariant h3

/-- C4: every tree state reachable by any sequence of insert and delete
operations (including the shift rebalancing passes) satisfies, at every
node, the AVL invariant `|height(left) − height(right)| ≤ 1` on the real
heights; with `Accurate` from the same reachability invariant this is also
the stored balance factor read by `AVLTree._get_balance`. -/
theorem C4_avl_invariant [LinearOrder α] {t : T α}
    (h : Reachable t) : AvlBal t = true :=
  sb_implies_avl (reachable_inv h).1

theorem C4_avl_invariant_witness :
    AvlBal (T.node 2 T.nil T.nil 1 1 : T ℕ) = true := by
  have h1 : Reachable (T.node 1 T.nil T.nil 1 1 : T ℕ) :=
    Reachable.ins T.nil _ 1 Reachable.empty ⟨0, fun _ _ => rfl⟩
  have h2 : Reachable (T.node 1 T.nil (T.node 2 T.nil T.nil 1 1) 2 1 : T ℕ) :=
    Reachable.ins _ _ 2 h1 ⟨1, fun f hf => minsert_mono hf (by decide)⟩
  have h3 : Reachable (T.node 2 T.nil T.nil 1 1 : T ℕ) :=
    Reachable.del _ _ 1 h2 ⟨1, fun f hf => mdelete_mono hf (by decide)⟩
  exact C4_avl_invariant h3

/-! ### Sorted output (the driver loop of `image_sort`) -/

/-- The driver loop of `image_sort`: insert the items of a list one at a
time (the oracle answering consistently with the linear order). -/
def insert_all [LinearOrder α] (f : Nat) : T α → List α → Option (T α)
  | t, [] => some t
  | t, v :: vs => (minsert f t v).bind fun t' => insert_all f t' vs

theorem insert_all_spec [LinearOrder α] (L : List α) : ∀ t : T α,
    StrictBal t = true → Accurate t = true →
    List.Sorted (· ≤ ·) (to_list t) →
    ∃ t', Outcome (fun f => insert_all f t L) t' ∧
      StrictBal t' = true ∧ Accurate t' = true ∧
      List.Sorted (· ≤ ·) (to_list t') ∧
      List.Perm (to_list t') (L ++ to_list t) := by
  induction L with
  | nil =>
    intro t hs ha hsort
    exact ⟨t, ⟨0, fun f _ => rfl⟩, hs, ha, hsort, by simp⟩
  | cons v vs ih =>
    intro t hs ha hsort
    obtain ⟨t1, ⟨f1, h1⟩, hs1, ha1, _, hto1⟩ := minsert_spec t v hs ha
    have hto1e : to_list t1 = insOrd v (to_list t) := hto1 hsort
    have hsort1 : List.Sorted (· ≤ ·) (to_list t1) := by
      rw [hto1e]
      exact insOrd_sorted hsort
    obtain ⟨t', ⟨f2, h2⟩, hs', ha', hsort', hperm⟩ := ih t1 hs1 ha1 hsort1
    refine ⟨t', ⟨max f1 f2, ?_⟩, hs', ha', hsort', ?_⟩
    · intro f hf
      have hg1 : minsert f t v = some t1 := h1 f (by omega)
      have hg2 : insert_all f t1 vs = some t' := h2 f (by omega)
      show (minsert f t v).bind (fun t2 => insert_all f t2 vs) = some t'
      rw [hg1]
      simp only [Option.some_bind]
      exact hg2
    · have hp1 : List.Perm (to_list t1) (v :: to_list t) := by
        rw [hto1e]
        exact insOrd_perm v (to_list t)
      exact hperm.trans ((List.Perm.append_left vs hp1).trans List.perm_middle)

/-- C1: inserting any duplicate-free list of items one at a time into the
empty strictly-balanced tree, with an oracle whose answers are consistent
with a fixed total order (and never UNDO/EXIT), terminates in a tree whose
in-order traversal `to_list` is exactly the sorted sequence of the items. -/
theorem C1_sorted_output {α : Type} [LinearOrder α] (L : List α)
    (hnd : L.Nodup) :
    ∃ t : T α, Outcome (fun f => insert_all f T.nil L) t ∧
      to_list t = List.insertionSort (fun a b => a ≤ b) L := by
  obtain ⟨t, ho, _, _, hsort, hperm⟩ :=
    insert_all_spec L T.nil rfl rfl (by rw [to_list_nil]; exact List.sorted_nil)
  refine ⟨t, ho, ?_⟩
  have hpL : List.Perm (to_list t) L := by
    rw [to_list_nil, List.append_nil] at hperm
    exact hperm
  have hp2 : List.Perm (to_list t) (List.insertionSort (fun a b => a ≤ b) L) :=
    hpL.trans (List.perm_insertionSort (fun a b => a ≤ b) L).symm
  exact List.eq_of_perm_of_sorted hp2 hsort
    (List.sorted_insertionSort (fun a b => a ≤ b) L)

theorem C1_sorted_output_witness :
    ([3, 1, 2] : List ℕ).Nodup ∧
    ∃ t : T ℕ, Outcome (fun f => insert_all f T.nil [3, 1, 2]) t ∧
      to_list t = List.insertionSort (fun a b => a ≤ b) [3, 1, 2] :=
  ⟨by decide, C1_sorted_output [3, 1, 2] (by decide)⟩

/-! ### Safety of the shift rebalancing pass (claim C9) -/

theorem node_ne_nil {v : α} {l r : T α} {h mh : Nat} :
    T.node v l r h mh ≠ T.nil := fun hx => T.noConfusion hx

theorem get_max_node_of_ne_nil {t : T α} (h : t ≠ T.nil) :
    ∃ mx, get_max_node t = some mx := by
  rw [get_max_node_spec]
  cases hc : (to_list t).getLast? with
  | none => exact absurd (to_list_eq_nil_iff.1 (List.getLast?_eq_none_iff.1 hc)) h
  | some x => exact ⟨x, rfl⟩

theorem get_min_node_of_ne_nil {t : T α} (h : t ≠ T.nil) :
    ∃ mn, get_min_node t = some mn := by
  rw [get_min_node_spec]
  cases hc : (to_list t).head? with
  | none => exact absurd (to_list_eq_nil_iff.1 (List.head?_eq_none_iff.1 hc)) h
  | some x => exact ⟨x, rfl⟩

/-- C9: whenever the shift pass triggers on the AVL-rebalanced node `t'`
(stored `height − minHeight > 1`), the donor subtree is non-empty, so the
extremal lookups `_get_max_node` / `_get_min_node` are never applied to an
empty subtree: in the right-shift branch the donor `t'.left` is non-empty
and its maximum exists, and in the left-shift branch the donor `t'.right`
is non-empty and its minimum exists (the embedding's `none` branch for
these lookups is unreachable).  Only accuracy of the stored attributes of
the original left child is needed. -/
theorem C9_shift_donor_nonempty {α : Type} (v : α) (l r : T α) (hh mm : Nat)
    (hal : Accurate l = true) (t' : T α)
    (havl : avl_balance (T.node v l r hh mm) = some t')
    (htrig : 1 < (get_height t' : Int) - (get_min_height t' : Int)) :
    (0 < (get_min_height (leftOf t') : Int) -
        (get_min_height (rightOf t') : Int) →
      leftOf t' ≠ T.nil ∧ ∃ mx, get_max_node (leftOf t') = some mx) ∧
    (¬ 0 < (get_min_height (leftOf t') : Int) -
        (get_min_height (rightOf t') : Int) →
      rightOf t' ≠ T.nil ∧ ∃ mn, get_min_node (rightOf t') = some mn) := by
  constructor
  · intro hcond
    have hne : leftOf t' ≠ T.nil := by
      intro hc
      rw [hc] at hcond
      simp only [get_min_height] at hcond
      omega
    exact ⟨hne, get_max_node_of_ne_nil hne⟩
  · intro hcond
    simp only [avl_balance] at havl
    by_cases hA : 1 < (get_height l : Int) - (get_height r : Int)
    · rw [if_pos hA] at havl
      by_cases hB : get_balance l < 0
      · rw [if_pos hB] at havl
        cases l with
        | nil => simp [left_rotate] at havl
        | node lv ll lr lh lm =>
          cases lr with
          | nil => simp [left_rotate] at havl
          | node lrv lrl lrr lrh lrm =>
            simp only [left_rotate, Option.some_bind, upd, right_rotate,
              Option.some.injEq] at havl
            subst havl
            exact ⟨node_ne_nil, get_min_node_of_ne_nil node_ne_nil⟩
      · rw [if_neg hB] at havl
        cases l with
        | nil => simp [right_rotate] at havl
        | node lv ll lr lh lm =>
          simp only [right_rotate, upd, Option.some.injEq] at havl
          subst havl
          exact ⟨node_ne_nil, get_min_node_of_ne_nil node_ne_nil⟩
    · rw [if_neg hA] at havl
      by_cases hC : (get_height l : Int) - (get_height r : Int) < -1
      · rw [if_pos hC] at havl
        by_cases hD : 0 < get_balance r
        · rw [if_pos hD] at havl
          cases r with
          | nil => simp [right_rotate] at havl
          | node rv rl rr rh2 rm2 =>
            cases rl with
            | nil => simp [right_rotate] at havl
            | node rlv rll rlr rlh rlm =>
              simp only [right_rotate, Option.some_bind, upd, left_rotate,
                Option.some.injEq] at havl
              subst havl
              exact ⟨node_ne_nil, get_min_node_of_ne_nil node_ne_nil⟩
        · rw [if_neg hD] at havl
          cases r with
          | nil => simp [left_rotate] at havl
          | node rv rl rr rh2 rm2 =>
            simp only [left_rotate, upd, Option.some.injEq] at havl
            subst havl
            have hne : rr ≠ T.nil := by
              intro hx
              have hc2 : ¬ 0 <
                  ((1 + min (get_min_height l) (get_min_height rl) : Nat) : Int)
                    - (get_min_height rr : Int) := hcond
              rw [hx] at hc2
              simp only [get_min_height] at hc2
              omega
            exact ⟨hne, get_min_node_of_ne_nil hne⟩
      · rw [if_neg hC] at havl
        simp only [upd, Option.some.injEq] at havl
        subst havl
        cases r with
        | node rv rl rr rh2 rm2 =>
          exact ⟨node_ne_nil, get_min_node_of_ne_nil node_ne_nil⟩
        | nil =>
          exfalso
          cases l with
          | nil =>
            have ht2 : (1 : Int) <
                ((1 + max (get_height (T.nil : T α)) (get_height (T.nil : T α))
                  : Nat) : Int) -
                ((1 + min (get_min_height (T.nil : T α))
                  (get_min_height (T.nil : T α)) : Nat) : Int) := htrig
            simp only [get_min_height, get_height] at ht2
            omega
          | node lv ll lr lh lm =>
            have hc2 : ¬ 0 < ((lm : Nat) : Int) -
                (get_min_height (T.nil : T α) : Int) := hcond
            simp only [get_min_height] at hc2
            have hacc := Accurate_node.1 hal
            have hlm : lm = 1 + min (rmh ll) (rmh lr) := hacc.2.2.2
            omega

theorem C9_shift_donor_nonempty_witness :
    rightOf (T.node 2 (T.node 1 (T.node 0 T.nil T.nil 1 1) T.nil 2 1)
        (T.node 4 (T.node 3 T.nil T.nil 1 1)
          (T.node 6 (T.node 5 T.nil T.nil 1 1) (T.node 7 T.nil T.nil 1 1) 2 2)
          3 2) 4 2 : T ℕ) ≠ T.nil ∧
    ∃ mn, get_min_node (rightOf (T.node 2
        (T.node 1 (T.node 0 T.nil T.nil 1 1) T.nil 2 1)
        (T.node 4 (T.node 3 T.nil T.nil 1 1)
          (T.node 6 (T.node 5 T.nil T.nil 1 1) (T.node 7 T.nil T.nil 1 1) 2 2)
          3 2) 4 2 : T ℕ)) = some mn :=
  (C9_shift_donor_nonempty 2
      (T.node 1 (T.node 0 T.nil T.nil 1 1) T.nil 2 1)
      (T.node 4 (T.node 3 T.nil T.nil 1 1)
        (T.node 6 (T.node 5 T.nil T.nil 1 1) (T.node 7 T.nil T.nil 1 1) 2 2)
        3 2) 9 9 (by decide)
      (T.node 2 (T.node 1 (T.node 0 T.nil T.nil 1 1) T.nil 2 1)
        (T.node 4 (T.node 3 T.nil T.nil 1 1)
          (T.node 6 (T.node 5 T.nil T.nil 1 1) (T.node 7 T.nil T.nil 1 1) 2 2)
          3 2) 4 2)
      (by decide) (by decide)).2 (by decide)

/-! ### The undoable inserter (`UndoTree`)

The exception-based control flow of `UndoTree.insert` / `_insert` / `_redo`
becomes a state-passing interpreter.  A comparison (`CompareImage.__lt__`)
is one oracle call: the oracle receives the index of the call and the two
compared values and answers "less", "not less", UNDO (`UndoClicked`) or
EXIT (`Exit`).

Python's list with `append`/`pop` at the right end is modelled with the
most recent element at the head for `roots`, `nodes`, `values` and
`resume` (`append x` ↦ `x :: ·`, `pop()` ↦ head and tail, `[-1]` ↦ the
head); the individual decision paths inside `nodes` keep Python's
left-to-right order (`append x` ↦ `· ++ [x]`, `pop()` ↦ `dropLast`),
because `_redo` reads them from the front.  `none` models an uncaught
`IndexError` / `AttributeError`, an exception escaping every handler
(`_Undo` or `_Redo` at top level), and fuel exhaustion. -/

/-- One oracle answer: `less` (`compare` returned `-1`), `ge` (any other
integer response), `undo` (`UndoClicked` raised), `exit` (`Exit`
raised). -/
inductive Ans where
  | less : Ans
  | ge : Ans
  | undo : Ans
  | exit : Ans
deriving Repr, DecidableEq

/-- A deterministic oracle script: the answer to the `k`-th comparison,
given the compared pair (`value`, `node.value`). -/
def Oracle (α : Type) : Type := Nat → α → α → Ans

/-- Bookkeeping events, for stating the pending-queue properties: a value
deferred onto `resume` by an undo rollback, and a deferred value retried. -/
inductive Ev (α : Type) where
  | defer : α → Ev α
  | retry : α → Ev α
deriving Repr, DecidableEq

/-- The `UndoTree` state: the live tree `root` and the bookkeeping lists
`roots` (snapshot stack), `nodes` (decision paths, one per entry of
`values`), `values` (value history) and `resume` (pending queue), plus the
oracle-call counter `k` and instrumentation: `trace` records the compared
pairs in order and `events` the defer/retry events. -/
structure US (α : Type) where
  root : T α
  roots : List (T α)
  nodes : List (List α)
  values : List α
  resume : List α
  k : Nat
  trace : List (α × α)
  events : List (Ev α)
deriving Repr, DecidableEq

/-- `self.nodes[-1].append(x)`; `none` is the `IndexError` on an empty
`nodes`. -/
def pushCmp (nodes : List (List α)) (x : α) : Option (List (List α)) :=
  match nodes with
  | [] => none
  | p :: rest => some ((p ++ [x]) :: rest)

/-- `self.nodes[-1].pop()`; `none` is the `IndexError` on an empty `nodes`
or an empty `nodes[-1]`. -/
def popCmp (nodes : List (List α)) : Option (List (List α)) :=
  match nodes with
  | [] => none
  | p :: rest => if p.isEmpty then none else some (p.dropLast :: rest)

/-- The value of a tree's root node, if any. -/
def rootVal : T α → Option α
  | .nil => none
  | .node v _ _ _ _ => some v

/-- The state right after one comparison: `nodes` already updated to
`nodes1` (the appended comparison), the call counter advanced, the
compared pair recorded. -/
def asked (s : US α) (nodes1 : List (List α)) (v nv : α) : US α :=
  { s with nodes := nodes1
           k := s.k + 1
           trace := s.trace ++ [(v, nv)] }

/-- `if self.root: self.roots.append(copy.deepcopy(self.root))`. -/
def snap [DecidableEq α] (s : US α) : US α :=
  if s.root ≠ T.nil then { s with roots := s.root :: s.roots } else s

/-- Replace the `nodes` list. -/
def setNodes (s : US α) (n : List (List α)) : US α := { s with nodes := n }

/-- Replace the live tree. -/
def setRoot (s : US α) (t : T α) : US α := { s with root := t }

/-- `self.nodes.append([]); self.values.append(value)` at the start of
`UndoTree.insert`. -/
def pushVal (s : US α) (v : α) : US α :=
  { s with nodes := [] :: s.nodes
           values := v :: s.values }

/-- `self.nodes.pop(); self.values.pop()` of the undo-past-root handler. -/
def popVal (s : US α) (nrest : List (List α)) (vrest : List α) : US α :=
  { s with nodes := nrest
           values := vrest }

/-- The state changes of the rollback branch: the popped current value
moved onto `resume`, the snapshot stack popped, the live tree replaced by
the popped snapshot, the defer event recorded. -/
def rollback (s : US α) (nrest : List (List α)) (vrest : List α) (pv : α)
    (rrest : List (T α)) (rt : T α) : US α :=
  { s with nodes := nrest
           values := vrest
           resume := pv :: s.resume
           roots := rrest
           root := rt
           events := s.events ++ [.defer pv] }

/-- `self.resume.pop()` with its retry event. -/
def popResume (s : US α) (pv : α) (rest : List α) : US α :=
  { s with resume := rest
           events := s.events ++ [.retry pv] }

/-- Result of `UndoTree._insert` on a subtree: a normal return, or one of
the exceptions `_Undo`, `_Cancel`, `Exit` propagating out of the call. -/
inductive IR (α : Type) where
  | ok : T α → US α → IR α
  | undo : US α → IR α
  | cancel : US α → IR α
  | exit : US α → IR α
deriving Repr, DecidableEq

/-- Result of `UndoTree._redo`: a normal return, or `_Redo`, `_Cancel`,
`Exit` propagating out of the call. -/
inductive RR (α : Type) where
  | ok : T α → US α → RR α
  | redoExc : US α → RR α
  | cancel : US α → RR α
  | exit : US α → RR α
deriving Repr, DecidableEq

/-- Result of the top-level `UndoTree.insert`: a normal return, or `Exit`
propagating (`_Cancel` is caught there, `UndoClicked` and `_Undo` lower
down). -/
inductive TR (α : Type) where
  | done : US α → TR α
  | exit : US α → TR α
deriving Repr, DecidableEq

mutual

/-- `UndoTree._insert(node, value)`.  `isRoot` is the identity check
`node == self.root` of the undo handler (`_Node` defines no `__eq__`, so
the Python comparison is object identity: true exactly for the frame
started on the live root).  The bookkeeping of lines 616–622 runs first,
then the inherited `AVLTree._insert` body with its comparison answered by
the oracle; `except UndoClicked` and `except _Undo` are the two
handlers. -/
def uinsert [DecidableEq α] : Nat → Oracle α → Bool → T α → α → US α →
    Option (IR α)
  | 0, _, _, _, _, _ => none
  | f + 1, o, isRoot, node, v, s =>
    match node with
    | .nil =>
      -- `if self.root: self.roots.append(copy.deepcopy(self.root))`;
      -- then `AVLTree._insert` returns a fresh leaf (no comparison).
      some (.ok (T.node v T.nil T.nil 1 1) (snap s))
    | .node nv l r hh mh =>
      -- `self.nodes[-1].append(node.value)`
      (pushCmp s.nodes nv).bind fun nodes1 =>
      -- `value < node.value` is one oracle call
      match o s.k v nv with
      | .exit => some (.exit (asked s nodes1 v nv))
      | .less =>
        -- `node.left = self._insert(node.left, value)`,
        -- then `return self._balance(node)`
        match uinsert f o false l v (asked s nodes1 v nv) with
        | none => none
        | some (.ok l2 s3) =>
          (balance f (T.node nv l2 r hh mh)).bind fun t2 => some (.ok t2 s3)
        | some (.undo s3) =>
          -- `except _Undo: self.nodes[-1].pop(); return self._insert(node, value)`
          (popCmp s3.nodes).bind fun nodes3 =>
          uinsert f o isRoot node v (setNodes s3 nodes3)
        | some (.cancel s3) => some (.cancel s3)
        | some (.exit s3) => some (.exit s3)
      | .ge =>
        match uinsert f o false r v (asked s nodes1 v nv) with
        | none => none
        | some (.ok r2 s3) =>
          (balance f (T.node nv l r2 hh mh)).bind fun t2 => some (.ok t2 s3)
        | some (.undo s3) =>
          (popCmp s3.nodes).bind fun nodes3 =>
          uinsert f o isRoot node v (setNodes s3 nodes3)
        | some (.cancel s3) => some (.cancel s3)
        | some (.exit s3) => some (.exit s3)
      | .undo =>
        -- `except UndoClicked` at this frame
        match isRoot with
        | true =>
          -- undo past the current root: `self.nodes.pop()`
          match (asked s nodes1 v nv).nodes with
          | [] => none
          | _ :: nrest =>
            match (asked s nodes1 v nv).roots, (asked s nodes1 v nv).values with
            | [], pv :: vrest =>
              -- first value: `self.insert(self.values.pop())`,
              -- then `raise self._Cancel`
              (match uinsertTop f o pv (popVal (asked s nodes1 v nv) nrest vrest) with
               | none => none
               | some (.done s4) => some (.cancel s4)
               | some (.exit s4) => some (.exit s4))
            | rt :: rrest, pv :: vrest =>
              -- `self.resume.append(self.values.pop())`;
              -- `self.root = self.roots.pop()`;
              -- `self.root = self._redo(self.root, self.values[-1],
              --                         self.nodes[-1])`;
              -- `raise self._Cancel`
              (match vrest, nrest with
               | prev :: _, path :: _ =>
                 (match uredo f o true rt prev path
                     (rollback (asked s nodes1 v nv) nrest vrest pv rrest rt) with
                  | none => none
                  | some (.ok t2 s5) => some (.cancel (setRoot s5 t2))
                  | some (.redoExc _) => none
                  | some (.cancel s5) => some (.cancel s5)
                  | some (.exit s5) => some (.exit s5))
               | _, _ => none)
            | _, [] => none
        | false =>
          -- `self.nodes[-1].pop(); raise self._Undo`
          (popCmp nodes1).bind fun nodes2 =>
          some (.undo (setNodes (asked s nodes1 v nv) nodes2))

/-- `UndoTree._redo(node, value, path)`; `isRoot` is the identity
`node == self.root` for the `_insert` at the end of the path. -/
def uredo [DecidableEq α] : Nat → Oracle α → Bool → T α → α → List α →
    US α → Option (RR α)
  | 0, _, _, _, _, _, _ => none
  | f + 1, o, isRoot, node, v, path, s =>
    if path.length ≤ 1 then
      -- `self.nodes[-1].pop(); return self._insert(node, value)`
      uredoLand f o isRoot node v s
    else
      match node with
      | .nil => none  -- `node.left` on `None`
      | .node nv l r hh mh =>
        match path with
        | [] => none
        | [_] => none
        | _ :: p1 :: prest =>
          if rootVal l = some p1 then
            -- `node.left = self._redo(node.left, value, path[1:])`
            match uredo f o false l v (p1 :: prest) s with
            | none => none
            | some (.ok l2 s2) =>
              (balance f (T.node nv l2 r hh mh)).bind fun t2 => some (.ok t2 s2)
            | some (.redoExc s2) =>
              -- `except _Redo: return self._redo(node, value, path[:1])`
              uredoLand f o isRoot (T.node nv l r hh mh) v s2
            | some (.cancel s2) => some (.cancel s2)
            | some (.exit s2) => some (.exit s2)
          else if rootVal r = some p1 then
            -- `node.right = self._redo(node.right, value, path[1:])`
            match uredo f o false r v (p1 :: prest) s with
            | none => none
            | some (.ok r2 s2) =>
              (balance f (T.node nv l r2 hh mh)).bind fun t2 => some (.ok t2 s2)
            | some (.redoExc s2) =>
              uredoLand f o isRoot (T.node nv l r hh mh) v s2
            | some (.cancel s2) => some (.cancel s2)
            | some (.exit s2) => some (.exit s2)
          else
            -- neither child continues the path: just `self._balance(node)`
            (balance f (T.node nv l r hh mh)).bind fun t2 => some (.ok t2 s)

/-- The `len(path) <= 1` arm of `UndoTree._redo` (also reached through
`except _Redo` with `path[:1]`): discard the last recorded comparison,
re-insert at this node, and convert `_Undo` into `_Redo`. -/
def uredoLand [DecidableEq α] : Nat → Oracle α → Bool → T α → α → US α →
    Option (RR α)
  | 0, _, _, _, _, _ => none
  | f + 1, o, isRoot, node, v, s =>
    (popCmp s.nodes).bind fun nodes1 =>
    match uinsert f o isRoot node v (setNodes s nodes1) with
    | none => none
    | some (.ok t2 s2) => some (.ok t2 s2)
    | some (.undo s2) => some (.redoExc s2)  -- `except _Undo: raise _Redo`
    | some (.cancel s2) => some (.cancel s2)
    | some (.exit s2) => some (.exit s2)

/-- `UndoTree.insert(value)`: append a fresh decision list and the value,
run the inherited insert (assigning the root on a normal return,
swallowing `_Cancel`), then retry a deferred value if any. -/
def uinsertTop [DecidableEq α] : Nat → Oracle α → α → US α → Option (TR α)
  | 0, _, _, _ => none
  | f + 1, o, v, s =>
    match uinsert f o true s.root v (pushVal s v) with
    | none => none
    | some (.ok t2 s2) => drain f o (setRoot s2 t2)
    | some (.undo _) => none  -- `_Undo` escaping `insert` is uncaught
    | some (.cancel s2) => drain f o s2
    | some (.exit s2) => some (.exit s2)

/-- `if self.resume: self.insert(self.resume.pop())` at the end of
`UndoTree.insert` (and of `SaveStateTree.__init__`). -/
def drain [DecidableEq α] : Nat → Oracle α → US α → Option (TR α)
  | 0, _, _ => none
  | f + 1, o, s =>
    match s.resume with
    | [] => some (.done s)
    | pv :: rest =>
      uinsertTop f o pv (popResume s pv rest)

end

/-- The state of a fresh `UndoTree` (`__init__`). -/
def US.init (α : Type) : US α := ⟨T.nil, [], [], [], [], 0, [], []⟩

/-- The caller's loop (`image_sort`): submit the items one at a time;
`none` if some insert does not return normally. -/
def processAll [DecidableEq α] (f : Nat) (o : Oracle α) :
    List α → US α → Option (US α)
  | [], s => some s
  | v :: vs, s =>
    match uinsertTop f o v s with
    | some (.done s2) => processAll f o vs s2
    | _ => none


theorem asked_nodes {s : US α} {n1 : List (List α)} {v nv : α} :
    (asked s n1 v nv).nodes = n1 := rfl


/-! One-level unfolding equations for the interpreter (definitional). -/

theorem uinsert_succ_nil [DecidableEq α] (f : Nat) (o : Oracle α) (b : Bool)
    (v : α) (s : US α) :
    uinsert (f + 1) o b T.nil v s =
      some (.ok (T.node v T.nil T.nil 1 1) (snap s)) := rfl

theorem uinsert_succ_node [DecidableEq α] (f : Nat) (o : Oracle α) (b : Bool)
    (nv : α) (l r : T α) (hh mh : Nat) (v : α) (s : US α) :
    uinsert (f + 1) o b (T.node nv l r hh mh) v s =
      ((pushCmp s.nodes nv).bind fun nodes1 =>
      match o s.k v nv with
      | .exit => some (.exit (asked s nodes1 v nv))
      | .less =>
        match uinsert f o false l v (asked s nodes1 v nv) with
        | none => none
        | some (.ok l2 s3) =>
          (balance f (T.node nv l2 r hh mh)).bind fun t2 => some (.ok t2 s3)
        | some (.undo s3) =>
          (popCmp s3.nodes).bind fun nodes3 =>
          uinsert f o b (T.node nv l r hh mh) v (setNodes s3 nodes3)
        | some (.cancel s3) => some (.cancel s3)
        | some (.exit s3) => some (.exit s3)
      | .ge =>
        match uinsert f o false r v (asked s nodes1 v nv) with
        | none => none
        | some (.ok r2 s3) =>
          (balance f (T.node nv l r2 hh mh)).bind fun t2 => some (.ok t2 s3)
        | some (.undo s3) =>
          (popCmp s3.nodes).bind fun nodes3 =>
          uinsert f o b (T.node nv l r hh mh) v (setNodes s3 nodes3)
        | some (.cancel s3) => some (.cancel s3)
        | some (.exit s3) => some (.exit s3)
      | .undo =>
        match b with
        | true =>
          match (asked s nodes1 v nv).nodes with
          | [] => none
          | _ :: nrest =>
            match (asked s nodes1 v nv).roots, (asked s nodes1 v nv).values with
            | [], pv :: vrest =>
              (match uinsertTop f o pv (popVal (asked s nodes1 v nv) nrest vrest) with
               | none => none
               | some (.done s4) => some (.cancel s4)
               | some (.exit s4) => some (.exit s4))
            | rt :: rrest, pv :: vrest =>
              (match vrest, nrest with
               | prev :: _, path :: _ =>
                 (match uredo f o true rt prev path
                     (rollback (asked s nodes1 v nv) nrest vrest pv rrest rt) with
                  | none => none
                  | some (.ok t2 s5) => some (.cancel (setRoot s5 t2))
                  | some (.redoExc _) => none
                  | some (.cancel s5) => some (.cancel s5)
                  | some (.exit s5) => some (.exit s5))
               | _, _ => none)
            | _, [] => none
        | false =>
          (popCmp nodes1).bind fun nodes2 =>
          some (.undo (setNodes (asked s nodes1 v nv) nodes2))) := rfl

theorem uredo_succ [DecidableEq α] (f : Nat) (o : Oracle α) (b : Bool)
    (node : T α) (v : α) (path : List α) (s : US α) :
    uredo (f + 1) o b node v path s =
      (if path.length ≤ 1 then
        uredoLand f o b node v s
      else
        match node with
        | .nil => none
        | .node nv l r hh mh =>
          match path with
          | [] => none
          | [_] => none
          | _ :: p1 :: prest =>
            if rootVal l = some p1 then
              match uredo f o false l v (p1 :: prest) s with
              | none => none
              | some (.ok l2 s2) =>
                (balance f (T.node nv l2 r hh mh)).bind fun t2 => some (.ok t2 s2)
              | some (.redoExc s2) =>
                uredoLand f o b (T.node nv l r hh mh) v s2
              | some (.cancel s2) => some (.cancel s2)
              | some (.exit s2) => some (.exit s2)
            else if rootVal r = some p1 then
              match uredo f o false r v (p1 :: prest) s with
              | none => none
              | some (.ok r2 s2) =>
                (balance f (T.node nv l r2 hh mh)).bind fun t2 => some (.ok t2 s2)
              | some (.redoExc s2) =>
                uredoLand f o b (T.node nv l r hh mh) v s2
              | some (.cancel s2) => some (.cancel s2)
              | some (.exit s2) => some (.exit s2)
            else
              (balance f (T.node nv l r hh mh)).bind fun t2 => some (.ok t2 s)) := rfl

theorem uredoLand_succ [DecidableEq α] (f : Nat) (o : Oracle α) (b : Bool)
    (node : T α) (v : α) (s : US α) :
    uredoLand (f + 1) o b node v s =
      ((popCmp s.nodes).bind fun nodes1 =>
      match uinsert f o b node v (setNodes s nodes1) with
      | none => none
      | some (.ok t2 s2) => some (.ok t2 s2)
      | some (.undo s2) => some (.redoExc s2)
      | some (.cancel s2) => some (.cancel s2)
      | some (.exit s2) => some (.exit s2)) := rfl

theorem uinsertTop_succ [DecidableEq α] (f : Nat) (o : Oracle α)
    (v : α) (s : US α) :
    uinsertTop (f + 1) o v s =
      (match uinsert f o true s.root v (pushVal s v) with
      | none => none
      | some (.ok t2 s2) => drain f o (setRoot s2 t2)
      | some (.undo _) => none
      | some (.cancel s2) => drain f o s2
      | some (.exit s2) => some (.exit s2)) := rfl

theorem drain_succ [DecidableEq α] (f : Nat) (o : Oracle α) (s : US α) :
    drain (f + 1) o s =
      (match s.resume with
      | [] => some (.done s)
      | pv :: rest =>
        uinsertTop f o pv (popResume s pv rest)) := rfl

theorem us_fuel_mono [DecidableEq α] : ∀ f : Nat,
    (∀ (o : Oracle α) (b : Bool) (node : T α) (v : α) (s : US α) (res : IR α),
      uinsert f o b node v s = some res → uinsert (f + 1) o b node v s = some res) ∧
    (∀ (o : Oracle α) (b : Bool) (node : T α) (v : α) (path : List α) (s : US α)
      (res : RR α),
      uredo f o b node v path s = some res →
        uredo (f + 1) o b node v path s = some res) ∧
    (∀ (o : Oracle α) (b : Bool) (node : T α) (v : α) (s : US α) (res : RR α),
      uredoLand f o b node v s = some res →
        uredoLand (f + 1) o b node v s = some res) ∧
    (∀ (o : Oracle α) (v : α) (s : US α) (res : TR α),
      uinsertTop f o v s = some res → uinsertTop (f + 1) o v s = some res) ∧
    (∀ (o : Oracle α) (s : US α) (res : TR α),
      drain f o s = some res → drain (f + 1) o s = some res) := by
  intro f
  induction f with
  | zero =>
    refine ⟨?_, ?_, ?_, ?_, ?_⟩ <;> intros <;>
      simp_all [uinsert, uredo, uredoLand, uinsertTop, drain]
  | succ f ih =>
    obtain ⟨ihI, ihR, ihL, ihT, ihD⟩ := ih
    refine ⟨?_, ?_, ?_, ?_, ?_⟩
    · intro o b node v s res h
      cases node with
      | nil => rw [uinsert_succ_nil] at h ⊢; exact h
      | node nv l r hh mh =>
        rw [uinsert_succ_node] at h ⊢
        rw [Option.bind_eq_some] at h ⊢
        obtain ⟨nodes1, hp, h⟩ := h
        refine ⟨nodes1, hp, ?_⟩
        cases ho : o s.k v nv <;> rw [ho] at h <;> dsimp only at h ⊢
        · -- less
          cases hrec : uinsert f o false l v (asked s nodes1 v nv) with
          | none => rw [hrec] at h; dsimp only at h; cases h
          | some ir =>
            rw [hrec] at h
            rw [ihI _ _ _ _ _ _ hrec]
            cases ir with
            | ok l2 s3 =>
              dsimp only at h ⊢
              rw [Option.bind_eq_some] at h ⊢
              obtain ⟨t2, hbal, he⟩ := h
              exact ⟨t2, (fuel_mono f).1 _ _ hbal, he⟩
            | undo s3 =>
              dsimp only at h ⊢
              rw [Option.bind_eq_some] at h ⊢
              obtain ⟨nodes3, hpop, hrec3⟩ := h
              exact ⟨nodes3, hpop, ihI _ _ _ _ _ _ hrec3⟩
            | cancel s3 => exact h
            | exit s3 => exact h
        · -- ge
          cases hrec : uinsert f o false r v (asked s nodes1 v nv) with
          | none => rw [hrec] at h; dsimp only at h; cases h
          | some ir =>
            rw [hrec] at h
            rw [ihI _ _ _ _ _ _ hrec]
            cases ir with
            | ok r2 s3 =>
              dsimp only at h ⊢
              rw [Option.bind_eq_some] at h ⊢
              obtain ⟨t2, hbal, he⟩ := h
              exact ⟨t2, (fuel_mono f).1 _ _ hbal, he⟩
            | undo s3 =>
              dsimp only at h ⊢
              rw [Option.bind_eq_some] at h ⊢
              obtain ⟨nodes3, hpop, hrec3⟩ := h
              exact ⟨nodes3, hpop, ihI _ _ _ _ _ _ hrec3⟩
            | cancel s3 => exact h
            | exit s3 => exact h
        · -- undo
          cases b with
          | false => exact h
          | true =>
            dsimp only at h ⊢
            cases hn : (asked s nodes1 v nv).nodes with
            | nil => rw [hn] at h; dsimp only at h; cases h
            | cons n0 nrest =>
              rw [hn] at h
              dsimp only at h ⊢
              cases hr : (asked s nodes1 v nv).roots with
              | nil =>
                rw [hr] at h
                cases hv : (asked s nodes1 v nv).values with
                | nil => rw [hv] at h; dsimp only at h; cases h
                | cons pv vrest =>
                  rw [hv] at h
                  dsimp only at h ⊢
                  cases htop : uinsertTop f o pv
                      (popVal (asked s nodes1 v nv) nrest vrest) with
                  | none => rw [htop] at h; dsimp only at h; cases h
                  | some tr =>
                    rw [htop] at h
                    rw [ihT _ _ _ _ htop]
                    cases tr <;> dsimp only at h ⊢ <;> exact h
              | cons rt rrest =>
                rw [hr] at h
                cases hv : (asked s nodes1 v nv).values with
                | nil => rw [hv] at h; dsimp only at h; cases h
                | cons pv vrest =>
                  rw [hv] at h
                  dsimp only at h ⊢
                  cases vrest with
                  | nil => dsimp only at h ⊢; exact h
                  | cons prev vrest2 =>
                    cases nrest with
                    | nil => dsimp only at h ⊢; exact h
                    | cons path nrest2 =>
                      dsimp only at h ⊢
                      cases hred : uredo f o true rt prev path
                          (rollback (asked s nodes1 v nv) (path :: nrest2)
                            (prev :: vrest2) pv rrest rt) with
                      | none => rw [hred] at h; dsimp only at h; cases h
                      | some rr =>
                        rw [hred] at h
                        rw [ihR _ _ _ _ _ _ _ hred]
                        cases rr <;> dsimp only at h ⊢ <;> exact h
        · -- exit
          exact h
    · intro o b node v path s res h
      rw [uredo_succ] at h ⊢
      by_cases hlen : path.length ≤ 1
      · rw [if_pos hlen] at h ⊢
        exact ihL _ _ _ _ _ _ h
      · rw [if_neg hlen] at h ⊢
        cases node with
        | nil => exact h
        | node nv l r hh mh =>
          cases path with
          | nil => exact h
          | cons p0 ptail =>
            cases ptail with
            | nil => exact h
            | cons p1 prest =>
              dsimp only at h ⊢
              by_cases hmL : rootVal l = some p1
              · rw [if_pos hmL] at h ⊢
                cases hrec : uredo f o false l v (p1 :: prest) s with
                | none => rw [hrec] at h; cases h
                | some rr =>
                  rw [hrec] at h
                  rw [ihR _ _ _ _ _ _ _ hrec]
                  cases rr with
                  | ok l2 s2 =>
                    dsimp only at h ⊢
                    rw [Option.bind_eq_some] at h ⊢
                    obtain ⟨t2, hbal, he⟩ := h
                    exact ⟨t2, (fuel_mono f).1 _ _ hbal, he⟩
                  | redoExc s2 => exact ihL _ _ _ _ _ _ h
                  | cancel s2 => exact h
                  | exit s2 => exact h
              · rw [if_neg hmL] at h ⊢
                by_cases hmR : rootVal r = some p1
                · rw [if_pos hmR] at h ⊢
                  cases hrec : uredo f o false r v (p1 :: prest) s with
                  | none => rw [hrec] at h; cases h
                  | some rr =>
                    rw [hrec] at h
                    rw [ihR _ _ _ _ _ _ _ hrec]
                    cases rr with
                    | ok r2 s2 =>
                      dsimp only at h ⊢
                      rw [Option.bind_eq_some] at h ⊢
                      obtain ⟨t2, hbal, he⟩ := h
                      exact ⟨t2, (fuel_mono f).1 _ _ hbal, he⟩
                    | redoExc s2 => exact ihL _ _ _ _ _ _ h
                    | cancel s2 => exact h
                    | exit s2 => exact h
                · rw [if_neg hmR] at h ⊢
                  rw [Option.bind_eq_some] at h ⊢
                  obtain ⟨t2, hbal, he⟩ := h
                  exact ⟨t2, (fuel_mono f).1 _ _ hbal, he⟩
    · intro o b node v s res h
      rw [uredoLand_succ] at h ⊢
      rw [Option.bind_eq_some] at h ⊢
      obtain ⟨nodes1, hpop, h⟩ := h
      refine ⟨nodes1, hpop, ?_⟩
      cases hrec : uinsert f o b node v (setNodes s nodes1) with
      | none => rw [hrec] at h; cases h
      | some ir =>
        rw [hrec] at h
        rw [ihI _ _ _ _ _ _ hrec]
        cases ir <;> exact h
    · intro o v s res h
      rw [uinsertTop_succ] at h ⊢
      cases hrec : uinsert f o true s.root v (pushVal s v) with
      | none => rw [hrec] at h; cases h
      | some ir =>
        rw [hrec] at h
        rw [ihI _ _ _ _ _ _ hrec]
        cases ir with
        | ok t2 s2 => exact ihD _ _ _ h
        | undo s2 => exact h
        | cancel s2 => exact ihD _ _ _ h
        | exit s2 => exact h
    · intro o s res h
      rw [drain_succ] at h ⊢
      cases hres : s.resume with
      | nil => rw [hres] at h; exact h
      | cons pv rest => rw [hres] at h; exact ihT _ _ _ _ h

theorem uinsert_mono [DecidableEq α] {f g : Nat} {o : Oracle α} {b : Bool}
    {node : T α} {v : α} {s : US α} {res : IR α} (hfg : f ≤ g)
    (h : uinsert f o b node v s = some res) : uinsert g o b node v s = some res := by
  induction g with
  | zero => cases Nat.le_zero.1 hfg; exact h
  | succ g ih =>
    rcases Nat.lt_or_ge f (g + 1) with h1 | h1
    · exact (us_fuel_mono g).1 _ _ _ _ _ _ (ih (by omega))
    · have he : f = g + 1 := by omega
      rw [← he]; exact h

theorem uredo_mono [DecidableEq α] {f g : Nat} {o : Oracle α} {b : Bool}
    {node : T α} {v : α} {path : List α} {s : US α} {res : RR α} (hfg : f ≤ g)
    (h : uredo f o b node v path s = some res) :
    uredo g o b node v path s = some res := by
  induction g with
  | zero => cases Nat.le_zero.1 hfg; exact h
  | succ g ih =>
    rcases Nat.lt_or_ge f (g + 1) with h1 | h1
    · exact (us_fuel_mono g).2.1 _ _ _ _ _ _ _ (ih (by omega))
    · have he : f = g + 1 := by omega
      rw [← he]; exact h

theorem uredoLand_mono [DecidableEq α] {f g : Nat} {o : Oracle α} {b : Bool}
    {node : T α} {v : α} {s : US α} {res : RR α} (hfg : f ≤ g)
    (h : uredoLand f o b node v s = some res) :
    uredoLand g o b node v s = some res := by
  induction g with
  | zero => cases Nat.le_zero.1 hfg; exact h
  | succ g ih =>
    rcases Nat.lt_or_ge f (g + 1) with h1 | h1
    · exact (us_fuel_mono g).2.2.1 _ _ _ _ _ _ (ih (by omega))
    · have he : f = g + 1 := by omega
      rw [← he]; exact h

theorem uinsertTop_mono [DecidableEq α] {f g : Nat} {o : Oracle α}
    {v : α} {s : US α} {res : TR α} (hfg : f ≤ g)
    (h : uinsertTop f o v s = some res) : uinsertTop g o v s = some res := by
  induction g with
  | zero => cases Nat.le_zero.1 hfg; exact h
  | succ g ih =>
    rcases Nat.lt_or_ge f (g + 1) with h1 | h1
    · exact (us_fuel_mono g).2.2.2.1 _ _ _ _ (ih (by omega))
    · have he : f = g + 1 := by omega
      rw [← he]; exact h

theorem drain_mono [DecidableEq α] {f g : Nat} {o : Oracle α}
    {s : US α} {res : TR α} (hfg : f ≤ g)
    (h : drain f o s = some res) : drain g o s = some res := by
  induction g with
  | zero => cases Nat.le_zero.1 hfg; exact h
  | succ g ih =>
    rcases Nat.lt_or_ge f (g + 1) with h1 | h1
    · exact (us_fuel_mono g).2.2.2.2 _ _ _ (ih (by omega))
    · have he : f = g + 1 := by omega
      rw [← he]; exact h

end SubjectiveSort
